import Mathlib

/-!
# Verification of the renovate major-version driver script

A shallow embedding of `src/script.js` from
`time-loop/octoherd-script-renovate-library-major-version-driver`.

The script is a per-repository pipeline: gatekeeper checks, a PR locator
loop, (for the `projen` variant) content repair on the PR branch, a
mergeability decision chain over a GraphQL status snapshot, approval and
merge actors, and a workflow rerun trigger with a 30-minute throttle.

All remote API interactions are modelled as a pure environment (`Env`)
supplying the data each call would return, and the script is a pure
function from inputs to a trace of side-effecting actions plus a terminal
outcome.  Timestamps are integers in milliseconds; the JS floating-point
divisions `(now - t) / (1000*60*60*24) > maxAgeDays` and
`(now - t) / (1000*60) < 30` are modelled by the equivalent exact integer
comparisons.
-/

set_option maxRecDepth 8192

namespace Renovate

/-- The opt-out topic name (`noTouchTopicName` in script.js line 3). -/
def noTouchTopicName : String := "octoherd-no-touch"

/-- CLI options of the script (script.js lines 117-125).  `majorVersion`
is required (the script throws when absent), the other three have
defaults. -/
structure Options where
  majorVersion : Option String
  library : String := "@time-loop/cdk-library"
  maxAgeDays : Int := 7
  merge : Bool := true
deriving DecidableEq, Repr

/-- The repository argument.  `default_branch` is carried by the octoherd
repository object; the script itself never reads it (it filters workflow
runs to the literal branch name "main"). -/
structure Repository where
  full_name : String
  owner_login : String
  name : String
  archived : Bool
  default_branch : String
deriving DecidableEq, Repr

/-- One element of the paginated `GET /repos/.../pulls?state=all` response,
restricted to the fields the script reads. -/
structure PullRequest where
  id : Int
  number : Int
  title : String
  merged_at : Option Int
  closed_at : Option Int
  draft : Bool
  html_url : String
  head_ref : String
deriving DecidableEq, Repr

/-- A node of `latestOpinionatedReviews(first:10, writersOnly:true)`. -/
structure ReviewNode where
  viewerDidAuthor : Bool
deriving DecidableEq, Repr

/-- The PR status snapshot returned by the composite GraphQL query
(script.js lines 400-433).  `statusCheckRollup` is `none` when the last
commit has no rollup. -/
structure Snapshot where
  mergeable : String
  reviewDecision : String
  viewerCanUpdate : Bool
  viewerDidAuthor : Bool
  latestOpinionatedReviews : List ReviewNode
  statusCheckRollup : Option String
  oid : String
deriving DecidableEq, Repr

/-- A workflow definition from `GET /repos/.../actions/workflows`. -/
structure Workflow where
  wfId : Int
  path : String
deriving DecidableEq, Repr

/-- A workflow run from `GET /repos/.../actions/workflows/:id/runs`. -/
structure WorkflowRun where
  runId : Int
  run_number : Int
  head_branch : String
  status : Option String
  run_started_at : Option Int
deriving DecidableEq, Repr

/-- The remote environment: everything the API calls of one invocation
would return, plus the current wall-clock time in milliseconds. -/
structure Env where
  topics : List String
  prs : List PullRequest
  /-- file contents on a branch: `files branch path`. -/
  files : String → String → Option String
  snapshot : PullRequest → Snapshot
  /-- whether the `enablePullRequestAutoMerge` mutation succeeds. -/
  autoMergeSucceeds : PullRequest → Bool
  /-- review decision returned by the re-check after an approval. -/
  newReviewDecision : PullRequest → String
  workflows : List Workflow
  runsOf : Int → List WorkflowRun
  now : Int

/-- Side-effecting calls the script can issue, in trace order. -/
inductive Action where
  | commitFile (branch path content : String)
  | enableAutoMerge (pr : PullRequest)
  | fetchSnapshot (pr : PullRequest)
  | submitApproval (pr : PullRequest) (commitId : String)
  | refetchReview (pr : PullRequest)
  | manualMerge (pr : PullRequest) (commitTitle : String)
  | logNoPR
  | rerunRequest (runId : Int)
deriving DecidableEq, Repr

/-- Terminal outcomes; each corresponds to one of the script's `return`
paths (or to the end of the function). -/
inductive Outcome where
  | missingMajorVersion
  | archivedSkip
  | noTouchSkip
  | alreadyMerged (pr : PullRequest)
  | draftPR (pr : PullRequest)
  | skipCannotUpdate (pr : PullRequest)
  | skipStatus (pr : PullRequest) (status : String)
  | skipMergeable (pr : PullRequest)
  | awaitingApproval (pr : PullRequest)
  | mergedManually (pr : PullRequest)
  | readyNoManualMerge (pr : PullRequest)
  | missingWorkflow
  | noRunsError
  | stillRunning
  | throttled
  | rerunTriggered
deriving DecidableEq, Repr

/-- The per-variant configuration derived by the `switch (majorVersion)`
(script.js lines 131-143). -/
structure Config where
  checkMaxAge : Bool
  expectedTitle : String
  workflowName : String
deriving DecidableEq, Repr

/-- script.js lines 131-143. -/
def mkConfig (majorVersion library : String) : Config :=
  if majorVersion = "all" then
    { checkMaxAge := true
      expectedTitle := "fix(deps): update all non-major dependencies"
      workflowName := "renovate" }
  else if majorVersion = "projen" then
    { checkMaxAge := true
      expectedTitle := "fix(deps): upgrade projen"
      workflowName := "update-projen-main" }
  else
    { checkMaxAge := false
      expectedTitle :=
        "fix(deps): update dependency " ++ library ++ " to " ++ majorVersion
      workflowName := "renovate" }

def msPerDay : Int := 1000 * 60 * 60 * 24

def msPerMinute : Int := 1000 * 60

/-- `statusCheckRollup?.state || "PENDING"` (script.js lines 439-441):
an absent rollup, and an empty state string (JS falsy), both read as
"PENDING". -/
def combinedStatus (s : Snapshot) : String :=
  match s.statusCheckRollup with
  | none => "PENDING"
  | some st => if st = "" then "PENDING" else st

/-- `!!latestOpinionatedReviews.nodes.find(n => n.viewerDidAuthor)`
(script.js lines 444-447). -/
def viewerDidApprove (s : Snapshot) : Bool :=
  s.latestOpinionatedReviews.any (fun n => n.viewerDidAuthor)

/-- The mergeability decision chain of script.js lines 461-557, as a
decision value: the four `return`-guards in source order, then the merge
step. -/
inductive Decision where
  | skipCannotUpdate
  | skipStatus
  | skipMergeable
  | delegateApproval
  | delegateMerge
deriving DecidableEq, Repr

/-- Decision table of the mergeability evaluator (script.js 461-491),
first match wins. -/
def evaluate (s : Snapshot) : Decision :=
  if ¬ s.viewerCanUpdate then .skipCannotUpdate
  else if combinedStatus s ≠ "SUCCESS" then .skipStatus
  else if s.mergeable ≠ "MERGEABLE" then .skipMergeable
  else if s.reviewDecision ≠ "APPROVED" then .delegateApproval
  else .delegateMerge

/-! ## Character-level model of the regex rewrites

The content-repair code of script.js performs a fixed set of JS regex
replacements.  Every one of those patterns has the shape "greedy
whitespace quantifier followed by a literal whose first character is not
whitespace" (or a literal newline / quote / brace in that position), so
the usual regex backtracking collapses: each pattern admits exactly one
candidate decomposition at a given start position, and global replacement
is an ordinary deterministic left-to-right scan.  The scanners below
implement exactly that determinized semantics; JS `\s` is the ECMAScript
WhiteSpace plus LineTerminator set, and the multiline anchors `^`/`$`
recognize the four ECMAScript LineTerminator characters. -/

/-- single quote -/
def sq : Char := Char.ofNat 39
/-- double quote -/
def dq : Char := Char.ofNat 34
/-- left brace -/
def lb : Char := Char.ofNat 123
/-- right brace -/
def rb : Char := Char.ofNat 125

/-- ECMAScript `\s`: WhiteSpace ∪ LineTerminator. -/
def jsWs (c : Char) : Bool :=
  let n := c.toNat
  n = 9 || n = 10 || n = 11 || n = 12 || n = 13 || n = 32 || n = 160 ||
  n = 0x1680 || (0x2000 ≤ n && n ≤ 0x200A) || n = 0x2028 || n = 0x2029 ||
  n = 0x202F || n = 0x205F || n = 0x3000 || n = 0xFEFF

/-- ECMAScript LineTerminator (what multiline `^` and `$` react to). -/
def lineTermB (c : Char) : Bool :=
  let n := c.toNat
  n = 10 || n = 13 || n = 0x2028 || n = 0x2029

/-- Split off the maximal `\s*` prefix. -/
def wsSplit : List Char → List Char × List Char
  | [] => ([], [])
  | c :: t =>
    if jsWs c then
      let p := wsSplit t
      (c :: p.1, p.2)
    else ([], c :: t)

/-- Consume an exact literal; `none` when the input does not start with
it. -/
def stripLit : List Char → List Char → Option (List Char)
  | [], l => some l
  | _ :: _, [] => none
  | p :: ps, c :: cs => if c = p then stripLit ps cs else none

/-- Does `p` hold on some suffix of the input (including the input itself
and the empty suffix)?  Used for unanchored regex search. -/
def anySuffix (p : List Char → Bool) : List Char → Bool
  | [] => p []
  | c :: t => p (c :: t) || anySuffix p t

/-- JS `String.prototype.includes`. -/
def containsSubL (needle hay : List Char) : Bool :=
  anySuffix (fun s => (stripLit needle s).isSome) hay

/-- JS `String.prototype.startsWith` (used on PR titles, script.js line
179), as a structural prefix check. -/
def jsStartsWith (s pre : String) : Bool := (stripLit pre.toList s.toList).isSome

theorem wsSplit_eq (l : List Char) : (wsSplit l).1 ++ (wsSplit l).2 = l := by
  induction l with
  | nil => rfl
  | cons c t ih =>
    unfold wsSplit
    by_cases h : jsWs c <;> simp [h, ih]

theorem wsSplit_fst_length (l : List Char) :
    (wsSplit l).1.length + (wsSplit l).2.length = l.length := by
  have := congrArg List.length (wsSplit_eq l)
  simpa using this

theorem stripLit_length {p l r : List Char} (h : stripLit p l = some r) :
    r.length + p.length = l.length := by
  induction p generalizing l with
  | nil => unfold stripLit at h; cases h; simp
  | cons a ps ih =>
    cases l with
    | nil => simp [stripLit] at h
    | cons c cs =>
      unfold stripLit at h
      by_cases hc : c = a
      · simp only [hc, if_pos rfl] at h
        have := ih h
        simp [← this]; omega
      · simp [hc] at h


/-- Match of `(\s+version:\s*)"9"` at the head of the input: maximal
nonempty `\s+`, literal `version:`, maximal `\s*`, then `"9"`.  Returns
the replacement text (`$1` then `10.22.0`, script.js lines 66-69) and the
rest of the input after the closing quote. -/
def pnpmMatchAt (l : List Char) : Option (List Char × List Char) :=
  match l with
  | [] => none
  | c :: _ =>
    if jsWs c then
      let p := wsSplit l
      match stripLit "version:".toList p.2 with
      | none => none
      | some r2 =>
        let p2 := wsSplit r2
        match stripLit [dq, '9', dq] p2.2 with
        | none => none
        | some r4 =>
          some (p.1 ++ "version:".toList ++ p2.1 ++ "10.22.0".toList, r4)
    else none

theorem pnpmMatchAt_rest_lt {l e r : List Char}
    (h : pnpmMatchAt l = some (e, r)) : r.length < l.length := by
  cases l with
  | nil => simp [pnpmMatchAt] at h
  | cons c t =>
    unfold pnpmMatchAt at h
    dsimp only at h
    by_cases hws : jsWs c
    · rw [if_pos hws] at h
      rcases h2 : stripLit "version:".toList (wsSplit (c :: t)).2 with _ | r2 <;>
          rw [h2] at h <;> dsimp only at h
      · exact absurd h (by simp)
      · rcases h4 : stripLit [dq, '9', dq] (wsSplit r2).2 with _ | r4 <;>
            rw [h4] at h <;> dsimp only at h
        · exact absurd h (by simp)
        · simp only [Option.some.injEq, Prod.mk.injEq] at h
          obtain ⟨-, hr⟩ := h
          subst hr
          have hl2 := stripLit_length h2
          have hl4 := stripLit_length h4
          have hw1 := wsSplit_fst_length (c :: t)
          have hw2 := wsSplit_fst_length r2
          have hv : ("version:".toList).length = 8 := rfl
          have hq : ([dq, '9', dq]).length = 3 := rfl
          rw [hv] at hl2
          rw [hq] at hl4
          simp only [List.length_cons] at hw1 ⊢
          omega
    · rw [if_neg hws] at h
      exact absurd h (by simp)

/-- Fuelled scanner for the global replace of `/(\s+version:\s*)"9"/g`
(script.js lines 66-69).  Every step consumes at least one character
(`pnpmMatchAt_rest_lt`), so fuel equal to the input length never runs
out; the fuel makes the recursion structural so that the kernel can
evaluate it. -/
def pnpmReplaceGo : Nat → List Char → List Char
  | 0, l => l
  | _ + 1, [] => []
  | n + 1, c :: t =>
    match pnpmMatchAt (c :: t) with
    | some (e, r) => e ++ pnpmReplaceGo n r
    | none => c :: pnpmReplaceGo n t

/-- Global replace of `/(\s+version:\s*)"9"/g` (script.js lines 66-69). -/
def pnpmReplaceL (l : List Char) : List Char := pnpmReplaceGo l.length l

/-- Decompose a list as `a ++ c :: b` where `c` is the last LineTerminator
character and `b` contains none. -/
def splitLastLT : List Char → Option (List Char × Char × List Char)
  | [] => none
  | c :: t =>
    match splitLastLT t with
    | some (a, d, b) => some (c :: a, d, b)
    | none => if lineTermB c then some ([], c, t) else none

/-- Trailing `\s*$` (multiline) after the last mandatory token of a
line-anchored pattern: greedily consume whitespace, then backtrack to the
last position at which `$` holds — end of input, or a position whose
character is a LineTerminator.  Returns the rest of the input from that
position together with whether the resume position starts a line (its
predecessor, the last consumed whitespace character, is a
LineTerminator).  `none` when no `$` position exists in the run. -/
def trailingDollarAfter (l : List Char) : Option (List Char × Bool) :=
  let p := wsSplit l
  match p.2 with
  | [] => some ([], true)
  | _ :: _ =>
    match splitLastLT p.1 with
    | none => none
    | some (a, c, b) =>
      some (c :: (b ++ p.2),
        match a.getLast? with
        | some d => lineTermB d
        | none => false)

/-- `[^'"]*['"]`: scan to the first quote of either kind, return what
follows it. -/
def takeToQuote : List Char → Option (List Char)
  | [] => none
  | c :: t => if c = sq || c = dq then some t else takeToQuote t

/-- `[^}]*\}`: scan to the first right brace, return what follows it. -/
def takeToRBrace : List Char → Option (List Char)
  | [] => none
  | c :: t => if c = rb then some t else takeToRBrace t

/-- `[ \t]*\n`: consume spaces and tabs, then require a literal newline;
return what follows it. -/
def spTabThenLF : List Char → Option (List Char)
  | [] => none
  | c :: t =>
    if c = ' ' || c = Char.ofNat 9 then spTabThenLF t
    else if c = '\n' then some t else none

/-- Optional comma `,?` (taking it is forced whenever it is present,
since `\s*$` cannot succeed while looking at a comma). -/
def dropComma : List Char → List Char
  | ',' :: t => t
  | l => l

/-- Match, at a line-start position, of
`/^\s*packageManager:\s*javascript\.NodePackageManager\.PNPM,?\s*$/`
(script.js lines 272-275). -/
def r1MatchAt (l : List Char) : Option (List Char × Bool) :=
  let p1 := wsSplit l
  match stripLit "packageManager:".toList p1.2 with
  | none => none
  | some b =>
    let p2 := wsSplit b
    match stripLit "javascript.NodePackageManager.PNPM".toList p2.2 with
    | none => none
    | some d => trailingDollarAfter (dropComma d)

/-- Match, at a line-start position, of
`/^\s*pnpmVersion:\s*['"][^'"]*['"],?\s*$/` (script.js lines 278-281). -/
def r2MatchAt (l : List Char) : Option (List Char × Bool) :=
  let p1 := wsSplit l
  match stripLit "pnpmVersion:".toList p1.2 with
  | none => none
  | some b =>
    let p2 := wsSplit b
    match p2.2 with
    | [] => none
    | q1 :: c =>
      if q1 = sq || q1 = dq then
        match takeToQuote c with
        | none => none
        | some d => trailingDollarAfter (dropComma d)
      else none

/-- Match, at a line-start position, of
`/^import\s+\{[^}]*\}\s+from\s+['"]projen['"];?\s*$/` — the import-line
shape stripped out before testing whether `javascript.` is still used
(script.js lines 284-287). -/
def importStripMatchAt (l : List Char) : Option (List Char × Bool) :=
  match stripLit "import".toList l with
  | none => none
  | some a =>
    let p1 := wsSplit a
    if p1.1.isEmpty then none
    else
      match p1.2 with
      | b :: c =>
        if b = lb then
          match takeToRBrace c with
          | none => none
          | some d =>
            let p2 := wsSplit d
            if p2.1.isEmpty then none
            else
              match stripLit "from".toList p2.2 with
              | none => none
              | some f =>
                let p3 := wsSplit f
                if p3.1.isEmpty then none
                else
                  match p3.2 with
                  | q1 :: g =>
                    if q1 = sq || q1 = dq then
                      match stripLit "projen".toList g with
                      | none => none
                      | some h1 =>
                        match h1 with
                        | q2 :: h2 =>
                          if q2 = sq || q2 = dq then
                            trailingDollarAfter
                              (match h2 with
                               | ';' :: h3 => h3
                               | _ => h2)
                          else none
                        | [] => none
                    else none
                  | [] => none
        else none
      | [] => none

/-- Match, at a line-start position, of
`/^import\s+\{\s*javascript\s*\}\s+from\s+['"]projen['"];?[ \t]*\n/` —
the import-removal rule (script.js lines 291-295).  The resume position
is just after the consumed newline, so it is always a line start. -/
def importRemoveMatchAt (l : List Char) : Option (List Char × Bool) :=
  match stripLit "import".toList l with
  | none => none
  | some a =>
    let p1 := wsSplit a
    if p1.1.isEmpty then none
    else
      match p1.2 with
      | b :: c =>
        if b = lb then
          let p2 := wsSplit c
          match stripLit "javascript".toList p2.2 with
          | none => none
          | some d =>
            let p3 := wsSplit d
            match p3.2 with
            | b2 :: e =>
              if b2 = rb then
                let p4 := wsSplit e
                if p4.1.isEmpty then none
                else
                  match stripLit "from".toList p4.2 with
                  | none => none
                  | some f =>
                    let p5 := wsSplit f
                    if p5.1.isEmpty then none
                    else
                      match p5.2 with
                      | q1 :: g =>
                        if q1 = sq || q1 = dq then
                          match stripLit "projen".toList g with
                          | none => none
                          | some h1 =>
                            match h1 with
                            | q2 :: h2 =>
                              if q2 = sq || q2 = dq then
                                match spTabThenLF
                                    (match h2 with
                                     | ';' :: h3 => h3
                                     | _ => h2) with
                                | none => none
                                | some rest => some (rest, true)
                              else none
                            | [] => none
                        else none
                      | [] => none
              else none
            | [] => none
        else none
      | [] => none

theorem wsSplit_snd_le (l : List Char) : (wsSplit l).2.length ≤ l.length := by
  have := wsSplit_fst_length l; omega

theorem splitLastLT_eq {l a : List Char} {c : Char} {b : List Char}
    (h : splitLastLT l = some (a, c, b)) : a ++ c :: b = l := by
  induction l generalizing a with
  | nil => simp [splitLastLT] at h
  | cons x t ih =>
    unfold splitLastLT at h
    rcases h2 : splitLastLT t with _ | ⟨a2, d2, b2⟩ <;> rw [h2] at h <;>
        dsimp only at h
    · by_cases hx : lineTermB x
      · rw [if_pos hx] at h
        simp only [Option.some.injEq, Prod.mk.injEq] at h
        obtain ⟨ha, hc, hb⟩ := h
        subst ha; subst hc; subst hb; rfl
      · rw [if_neg hx] at h; exact absurd h (by simp)
    · simp only [Option.some.injEq, Prod.mk.injEq] at h
      obtain ⟨ha, hc, hb⟩ := h
      subst ha; subst hc; subst hb
      simpa using congrArg (List.cons x) (ih h2)

theorem trailingDollarAfter_le {l r : List Char} {f : Bool}
    (h : trailingDollarAfter l = some (r, f)) : r.length ≤ l.length := by
  unfold trailingDollarAfter at h
  dsimp only at h
  rcases hp : (wsSplit l).2 with _ | ⟨x, xs⟩ <;> rw [hp] at h <;> dsimp only at h
  · simp only [Option.some.injEq, Prod.mk.injEq] at h
    obtain ⟨hr, -⟩ := h
    subst hr; simp
  · rcases hs : splitLastLT (wsSplit l).1 with _ | ⟨a, c, b⟩ <;> rw [hs] at h <;>
        dsimp only at h
    · exact absurd h (by simp)
    · simp only [Option.some.injEq, Prod.mk.injEq] at h
      obtain ⟨hr, -⟩ := h
      subst hr
      have he := splitLastLT_eq hs
      have h1 : a.length + (1 + b.length) = (wsSplit l).1.length := by
        have := congrArg List.length he; simpa [Nat.add_comm, Nat.add_assoc,
          Nat.add_left_comm] using this
      have h2 := wsSplit_fst_length l
      have h3 : (wsSplit l).2.length = xs.length + 1 := by rw [hp]; simp
      simp only [List.length_cons, List.length_append]
      omega

theorem takeToQuote_lt {l r : List Char} (h : takeToQuote l = some r) :
    r.length < l.length := by
  induction l with
  | nil => simp [takeToQuote] at h
  | cons c t ih =>
    unfold takeToQuote at h
    by_cases hc : c = sq || c = dq
    · rw [if_pos hc] at h
      simp only [Option.some.injEq] at h
      subst h; simp
    · rw [if_neg hc] at h
      have := ih h
      simp only [List.length_cons]
      omega

theorem takeToRBrace_lt {l r : List Char} (h : takeToRBrace l = some r) :
    r.length < l.length := by
  induction l with
  | nil => simp [takeToRBrace] at h
  | cons c t ih =>
    unfold takeToRBrace at h
    by_cases hc : c = rb
    · rw [if_pos hc] at h
      simp only [Option.some.injEq] at h
      subst h; simp
    · rw [if_neg hc] at h
      have := ih h
      simp only [List.length_cons]
      omega

theorem spTabThenLF_lt {l r : List Char} (h : spTabThenLF l = some r) :
    r.length < l.length := by
  induction l with
  | nil => simp [spTabThenLF] at h
  | cons c t ih =>
    unfold spTabThenLF at h
    by_cases hc : c = ' ' || c = Char.ofNat 9
    · rw [if_pos hc] at h
      have := ih h
      simp only [List.length_cons]
      omega
    · rw [if_neg hc] at h
      by_cases hn : c = '\n'
      · rw [if_pos hn] at h
        simp only [Option.some.injEq] at h
        subst h; simp
      · rw [if_neg hn] at h; exact absurd h (by simp)

theorem dropComma_le (l : List Char) : (dropComma l).length ≤ l.length := by
  unfold dropComma
  split
  · simp
  · simp

theorem r1MatchAt_rest_lt {l rest : List Char} {f : Bool}
    (h : r1MatchAt l = some (rest, f)) : rest.length < l.length := by
  unfold r1MatchAt at h
  dsimp only at h
  rcases h1 : stripLit "packageManager:".toList (wsSplit l).2 with _ | b <;>
      rw [h1] at h <;> dsimp only at h
  · exact absurd h (by simp)
  · rcases h2 : stripLit "javascript.NodePackageManager.PNPM".toList
        (wsSplit b).2 with _ | d <;> rw [h2] at h <;> dsimp only at h
    · exact absurd h (by simp)
    · have hb := stripLit_length h1
      have hd := stripLit_length h2
      have hw1 := wsSplit_fst_length l
      have hw2 := wsSplit_fst_length b
      have htr := trailingDollarAfter_le h
      have hdc := dropComma_le d
      have hlit1 : ("packageManager:".toList).length = 15 := rfl
      have hlit2 : ("javascript.NodePackageManager.PNPM".toList).length = 34 := rfl
      omega

theorem r2MatchAt_rest_lt {l rest : List Char} {f : Bool}
    (h : r2MatchAt l = some (rest, f)) : rest.length < l.length := by
  unfold r2MatchAt at h
  dsimp only at h
  rcases h1 : stripLit "pnpmVersion:".toList (wsSplit l).2 with _ | b <;>
      rw [h1] at h <;> dsimp only at h
  · exact absurd h (by simp)
  · rcases h2 : (wsSplit b).2 with _ | ⟨q1, c⟩ <;> rw [h2] at h <;> dsimp only at h
    · exact absurd h (by simp)
    · by_cases hq : q1 = sq || q1 = dq
      · rw [if_pos hq] at h
        rcases h3 : takeToQuote c with _ | d <;> rw [h3] at h <;> dsimp only at h
        · exact absurd h (by simp)
        · have hb := stripLit_length h1
          have hw1 := wsSplit_fst_length l
          have hw2 := wsSplit_fst_length b
          have hc : (wsSplit b).2.length = c.length + 1 := by rw [h2]; simp
          have htq := takeToQuote_lt h3
          have htr := trailingDollarAfter_le h
          have hdc := dropComma_le d
          have hlit1 : ("pnpmVersion:".toList).length = 12 := rfl
          omega
      · rw [if_neg hq] at h; exact absurd h (by simp)

theorem importStripMatchAt_rest_lt {l rest : List Char} {f : Bool}
    (h : importStripMatchAt l = some (rest, f)) : rest.length < l.length := by
  unfold importStripMatchAt at h
  dsimp only at h
  rcases h1 : stripLit "import".toList l with _ | a <;> rw [h1] at h <;>
      dsimp only at h
  · exact absurd h (by simp)
  · by_cases he1 : (wsSplit a).1.isEmpty
    · rw [if_pos he1] at h; exact absurd h (by simp)
    · rw [if_neg he1] at h
      rcases h2 : (wsSplit a).2 with _ | ⟨b, c⟩ <;> rw [h2] at h <;> dsimp only at h
      · exact absurd h (by simp)
      · by_cases hb : b = lb
        · rw [if_pos hb] at h
          rcases h3 : takeToRBrace c with _ | d <;> rw [h3] at h <;> dsimp only at h
          · exact absurd h (by simp)
          · by_cases he2 : (wsSplit d).1.isEmpty
            · rw [if_pos he2] at h; exact absurd h (by simp)
            · rw [if_neg he2] at h
              rcases h4 : stripLit "from".toList (wsSplit d).2 with _ | e <;>
                  rw [h4] at h <;> dsimp only at h
              · exact absurd h (by simp)
              · by_cases he3 : (wsSplit e).1.isEmpty
                · rw [if_pos he3] at h; exact absurd h (by simp)
                · rw [if_neg he3] at h
                  rcases h5 : (wsSplit e).2 with _ | ⟨q1, g⟩ <;> rw [h5] at h <;>
                      dsimp only at h
                  · exact absurd h (by simp)
                  · by_cases hq1 : q1 = sq || q1 = dq
                    · rw [if_pos hq1] at h
                      rcases h6 : stripLit "projen".toList g with _ | j1 <;>
                          rw [h6] at h <;> dsimp only at h
                      · exact absurd h (by simp)
                      · rcases h7 : j1 with _ | ⟨q2, j2⟩ <;> rw [h7] at h <;>
                            dsimp only at h
                        · exact absurd h (by simp)
                        · by_cases hq2 : q2 = sq || q2 = dq
                          · rw [if_pos hq2] at h
                            have htr := trailingDollarAfter_le h
                            have hsemi : (match j2 with
                                | ';' :: j3 => j3
                                | _ => j2).length ≤ j2.length := by
                              split <;> simp
                            have hl1 := stripLit_length h1
                            have hw1 := wsSplit_fst_length a
                            have hc2 : (wsSplit a).2.length = c.length + 1 := by
                              rw [h2]; simp
                            have hrb := takeToRBrace_lt h3
                            have hw2 := wsSplit_fst_length d
                            have hl4 := stripLit_length h4
                            have hw3 := wsSplit_fst_length e
                            have hg : (wsSplit e).2.length = g.length + 1 := by
                              rw [h5]; simp
                            have hl6 := stripLit_length h6
                            have hh1 : j1.length = j2.length + 1 := by rw [h7]; simp
                            have hlit1 : ("import".toList).length = 6 := rfl
                            have hlit4 : ("from".toList).length = 4 := rfl
                            have hlit6 : ("projen".toList).length = 6 := rfl
                            omega
                          · rw [if_neg hq2] at h; exact absurd h (by simp)
                    · rw [if_neg hq1] at h; exact absurd h (by simp)
        · rw [if_neg hb] at h; exact absurd h (by simp)

theorem importRemoveMatchAt_rest_lt {l rest : List Char} {f : Bool}
    (h : importRemoveMatchAt l = some (rest, f)) : rest.length < l.length := by
  unfold importRemoveMatchAt at h
  dsimp only at h
  rcases h1 : stripLit "import".toList l with _ | a <;> rw [h1] at h <;>
      dsimp only at h
  · exact absurd h (by simp)
  · by_cases he1 : (wsSplit a).1.isEmpty
    · rw [if_pos he1] at h; exact absurd h (by simp)
    · rw [if_neg he1] at h
      rcases h2 : (wsSplit a).2 with _ | ⟨b, c⟩ <;> rw [h2] at h <;> dsimp only at h
      · exact absurd h (by simp)
      · by_cases hb : b = lb
        · rw [if_pos hb] at h
          rcases h3 : stripLit "javascript".toList (wsSplit c).2 with _ | d <;>
              rw [h3] at h <;> dsimp only at h
          · exact absurd h (by simp)
          · rcases h4 : (wsSplit d).2 with _ | ⟨b2, e⟩ <;> rw [h4] at h <;>
                dsimp only at h
            · exact absurd h (by simp)
            · by_cases hb2 : b2 = rb
              · rw [if_pos hb2] at h
                by_cases he2 : (wsSplit e).1.isEmpty
                · rw [if_pos he2] at h; exact absurd h (by simp)
                · rw [if_neg he2] at h
                  rcases h5 : stripLit "from".toList (wsSplit e).2 with _ | f1 <;>
                      rw [h5] at h <;> dsimp only at h
                  · exact absurd h (by simp)
                  · by_cases he3 : (wsSplit f1).1.isEmpty
                    · rw [if_pos he3] at h; exact absurd h (by simp)
                    · rw [if_neg he3] at h
                      rcases h6 : (wsSplit f1).2 with _ | ⟨q1, g⟩ <;> rw [h6] at h <;>
                          dsimp only at h
                      · exact absurd h (by simp)
                      · by_cases hq1 : q1 = sq || q1 = dq
                        · rw [if_pos hq1] at h
                          rcases h7 : stripLit "projen".toList g with _ | j1 <;>
                              rw [h7] at h <;> dsimp only at h
                          · exact absurd h (by simp)
                          · rcases h8 : j1 with _ | ⟨q2, j2⟩ <;> rw [h8] at h <;>
                                dsimp only at h
                            · exact absurd h (by simp)
                            · by_cases hq2 : q2 = sq || q2 = dq
                              · rw [if_pos hq2] at h
                                set j2d := (match j2 with
                                    | ';' :: j3 => j3
                                    | _ => j2) with hj2d
                                rcases h9 : spTabThenLF j2d with _ | r9 <;>
                                    rw [h9] at h <;> dsimp only at h
                                · exact absurd h (by simp)
                                · simp only [Option.some.injEq, Prod.mk.injEq] at h
                                  obtain ⟨hr, -⟩ := h
                                  subst hr
                                  have hsp := spTabThenLF_lt h9
                                  have hsemi : j2d.length ≤ j2.length := by
                                    rw [hj2d]; split <;> simp
                                  have hl1 := stripLit_length h1
                                  have hw1 := wsSplit_fst_length a
                                  have hc2 : (wsSplit a).2.length = c.length + 1 := by
                                    rw [h2]; simp
                                  have hw2 := wsSplit_fst_length c
                                  have hl3 := stripLit_length h3
                                  have hw3 := wsSplit_fst_length d
                                  have he4 : (wsSplit d).2.length = e.length + 1 := by
                                    rw [h4]; simp
                                  have hw4 := wsSplit_fst_length e
                                  have hl5 := stripLit_length h5
                                  have hw5 := wsSplit_fst_length f1
                                  have hg : (wsSplit f1).2.length = g.length + 1 := by
                                    rw [h6]; simp
                                  have hl7 := stripLit_length h7
                                  have hh1 : j1.length = j2.length + 1 := by
                                    rw [h8]; simp
                                  have hlit1 : ("import".toList).length = 6 := rfl
                                  have hlit3 : ("javascript".toList).length = 10 := rfl
                                  have hlit5 : ("from".toList).length = 4 := rfl
                                  have hlit7 : ("projen".toList).length = 6 := rfl
                                  omega
                              · rw [if_neg hq2] at h; exact absurd h (by simp)
                        · rw [if_neg hq1] at h; exact absurd h (by simp)
              · rw [if_neg hb2] at h; exact absurd h (by simp)
        · rw [if_neg hb] at h; exact absurd h (by simp)

/-- Global multiline replace-by-empty for a line-anchored pattern: walk
the text position by position, attempting the match only at line starts
(`atLS`); on a match nothing is emitted and scanning resumes at the
returned rest with the returned line-start flag, exactly as the JS engine
resumes at `lastIndex` after a `replace(..., "")`. -/
def gmScanGo (m : List Char → Option (List Char × Bool)) :
    Nat → Bool → List Char → List Char
  | 0, _, l => l
  | _ + 1, _, [] => []
  | n + 1, atLS, c :: t =>
    if atLS then
      match m (c :: t) with
      | some (rest, flag) => gmScanGo m n flag rest
      | none => c :: gmScanGo m n (lineTermB c) t
    else c :: gmScanGo m n (lineTermB c) t

def gmScan (m : List Char → Option (List Char × Bool)) (atLS : Bool)
    (l : List Char) : List Char :=
  gmScanGo m l.length atLS l

/-- Global unanchored replace: attempt the match at every position in
order; on a match emit the replacement and resume after the matched
region. -/
def replScanGo (m : List Char → Option (List Char × List Char)) :
    Nat → List Char → List Char
  | 0, l => l
  | _ + 1, [] => []
  | n + 1, c :: t =>
    match m (c :: t) with
    | some (e, r) => e ++ replScanGo m n r
    | none => c :: replScanGo m n t

def replScan (m : List Char → Option (List Char × List Char))
    (l : List Char) : List Char :=
  replScanGo m l.length l

/-- Count and strip a maximal leading run of literal newlines. -/
def lfRunSplit : List Char → Nat × List Char
  | [] => (0, [])
  | c :: t =>
    if c = '\n' then
      let p := lfRunSplit t
      (p.1 + 1, p.2)
    else (0, c :: t)

theorem lfRunSplit_length (l : List Char) :
    (lfRunSplit l).1 + (lfRunSplit l).2.length = l.length := by
  induction l with
  | nil => rfl
  | cons c t ih =>
    unfold lfRunSplit
    by_cases hc : c = '\n' <;> simp [hc] <;> omega

/-- `/\n\n\n+/g → "\n\n"` (script.js line 298): every maximal run of
three or more newlines collapses to two. -/
def r4ScanGo : Nat → List Char → List Char
  | 0, l => l
  | _ + 1, [] => []
  | n + 1, c :: t =>
    if c = '\n' then
      let p := lfRunSplit (c :: t)
      (if 3 ≤ p.1 then ['\n', '\n'] else List.replicate p.1 '\n') ++
        r4ScanGo n p.2
    else c :: r4ScanGo n t

def r4Scan (l : List Char) : List Char := r4ScanGo l.length l

/-- Segments of a character list split at literal newlines
(`splitLF w` has length (number of newlines in `w`) + 1). -/
def splitLF : List Char → List (List Char)
  | [] => [[]]
  | c :: t =>
    if c = '\n' then [] :: splitLF t
    else
      match splitLF t with
      | s :: ss => (c :: s) :: ss
      | [] => [[c]]

/-- Core of the two `X\s*\n\s*\n(\s+)` rules: given the maximal
whitespace run `w` after the anchor character, decide whether the
pattern matches and compute the captured `$1` under leftmost-greedy
semantics.  The two mandatory `\n` are chosen as late as possible such
that the trailing `(\s+)` is nonempty; the capture is then everything in
`w` after the second mandatory newline.  A match needs at least two
newlines in `w` and at least one whitespace character after the second
one. -/
def anchorBlankSplit (w : List Char) : Option (List Char) :=
  let segs := splitLF w
  match segs.getLast? with
  | none => none
  | some last =>
    if last.isEmpty then
      if 4 ≤ segs.length then
        some ((segs.dropLast.getLast?.getD []) ++ ['\n'])
      else none
    else
      if 3 ≤ segs.length then some last else none

/-- `/,\s*\n\s*\n(\s+)/g → ",\n$1"` (script.js lines 302-305). -/
def commaBlankMatchAt : List Char → Option (List Char × List Char)
  | c :: t =>
    if c = ',' then
      let p := wsSplit t
      match anchorBlankSplit p.1 with
      | none => none
      | some suffix => some (',' :: '\n' :: suffix, p.2)
    else none
  | [] => none

/-- `/\{\s*\n\s*\n(\s+)/g → "{\n$1"` (script.js lines 309-312). -/
def braceBlankMatchAt : List Char → Option (List Char × List Char)
  | c :: t =>
    if c = lb then
      let p := wsSplit t
      match anchorBlankSplit p.1 with
      | none => none
      | some suffix => some (lb :: '\n' :: suffix, p.2)
    else none
  | [] => none

theorem commaBlankMatchAt_rest_lt {l e r : List Char}
    (h : commaBlankMatchAt l = some (e, r)) : r.length < l.length := by
  cases l with
  | nil => simp [commaBlankMatchAt] at h
  | cons c t =>
    unfold commaBlankMatchAt at h
    dsimp only at h
    by_cases hc : c = ','
    · rw [if_pos hc] at h
      rcases h1 : anchorBlankSplit (wsSplit t).1 with _ | s <;> rw [h1] at h <;>
          dsimp only at h
      · exact absurd h (by simp)
      · simp only [Option.some.injEq, Prod.mk.injEq] at h
        obtain ⟨-, hr⟩ := h
        subst hr
        have := wsSplit_snd_le t
        simp only [List.length_cons]
        omega
    · rw [if_neg hc] at h; exact absurd h (by simp)

theorem braceBlankMatchAt_rest_lt {l e r : List Char}
    (h : braceBlankMatchAt l = some (e, r)) : r.length < l.length := by
  cases l with
  | nil => simp [braceBlankMatchAt] at h
  | cons c t =>
    unfold braceBlankMatchAt at h
    dsimp only at h
    by_cases hc : c = lb
    · rw [if_pos hc] at h
      rcases h1 : anchorBlankSplit (wsSplit t).1 with _ | s <;> rw [h1] at h <;>
          dsimp only at h
      · exact absurd h (by simp)
      · simp only [Option.some.injEq, Prod.mk.injEq] at h
        obtain ⟨-, hr⟩ := h
        subst hr
        have := wsSplit_snd_le t
        simp only [List.length_cons]
        omega
    · rw [if_neg hc] at h; exact absurd h (by simp)

/-- `/\s*\n\s*\n(\s*\})/g → "\n$1"` (script.js lines 316-319): under
leftmost-greedy matching the match always swallows the whole maximal
whitespace run before the brace, its capture is the (newline-free)
whitespace after the last newline plus the brace, and the run must hold
at least two newlines. -/
def closeBraceBlankMatchAt : List Char → Option (List Char × List Char)
  | [] => none
  | c :: t =>
    if jsWs c then
      let p := wsSplit (c :: t)
      match p.2 with
      | b :: r2 =>
        if b = rb ∧ 2 ≤ p.1.count '\n' then
          some ('\n' :: (((splitLF p.1).getLast?.getD []) ++ [rb]), r2)
        else none
      | [] => none
    else none

theorem closeBraceBlankMatchAt_rest_lt {l e r : List Char}
    (h : closeBraceBlankMatchAt l = some (e, r)) : r.length < l.length := by
  cases l with
  | nil => simp [closeBraceBlankMatchAt] at h
  | cons c t =>
    unfold closeBraceBlankMatchAt at h
    dsimp only at h
    by_cases hc : jsWs c
    · rw [if_pos hc] at h
      rcases h1 : (wsSplit (c :: t)).2 with _ | ⟨b, r2⟩ <;> rw [h1] at h <;>
          dsimp only at h
      · exact absurd h (by simp)
      · by_cases hb : b = rb ∧ 2 ≤ (wsSplit (c :: t)).1.count '\n'
        · rw [if_pos hb] at h
          simp only [Option.some.injEq, Prod.mk.injEq] at h
          obtain ⟨-, hr⟩ := h
          subst hr
          have hw := wsSplit_fst_length (c :: t)
          have : (wsSplit (c :: t)).2.length = r2.length + 1 := by rw [h1]; simp
          simp only [List.length_cons] at hw ⊢
          omega
        · rw [if_neg hb] at h; exact absurd h (by simp)
    · rw [if_neg hc] at h; exact absurd h (by simp)

/-- Removal pass of `/^\s*packageManager:\s*javascript\.NodePackageManager\.PNPM,?\s*$/gm`
(script.js lines 272-275). -/
def removePackageManagerLines (l : List Char) : List Char :=
  gmScan r1MatchAt true l

/-- Removal pass of `/^\s*pnpmVersion:\s*['"][^'"]*['"],?\s*$/gm`
(script.js lines 278-281). -/
def removePnpmVersionLines (l : List Char) : List Char :=
  gmScan r2MatchAt true l

/-- Removal pass of `/^import\s+\{[^}]*\}\s+from\s+['"]projen['"];?\s*$/gm`,
computing `remainingContent` (script.js lines 284-287). -/
def stripImportLines (l : List Char) : List Char :=
  gmScan importStripMatchAt true l

/-- Removal pass of
`/^import\s+\{\s*javascript\s*\}\s+from\s+['"]projen['"];?[ \t]*\n/gm`
(script.js lines 291-295). -/
def removeJavascriptImport (l : List Char) : List Char :=
  gmScan importRemoveMatchAt true l

/-- `/,\s*\n\s*\n(\s+)/g → ",\n$1"` as a full scan. -/
def commaBlankFix : List Char → List Char :=
  replScan commaBlankMatchAt

/-- `/\{\s*\n\s*\n(\s+)/g → "{\n$1"` as a full scan. -/
def openBraceBlankFix : List Char → List Char :=
  replScan braceBlankMatchAt

/-- `/\s*\n\s*\n(\s*\})/g → "\n$1"` as a full scan. -/
def closeBraceBlankFix : List Char → List Char :=
  replScan closeBraceBlankMatchAt

/-- The deprecated-configuration marker tested with `String.includes`
(script.js lines 250-254). -/
def markerL : List Char :=
  "packageManager: javascript.NodePackageManager.PNPM".toList

/-- The rewrite chain applied to `.projenrc.ts` once the marker is found
(script.js lines 259-319): remove the `packageManager` line, remove the
`pnpmVersion` line, remove the now-unused `javascript` import when
`javascript.` no longer occurs outside import lines, then the three
blank-line cleanups in source order. -/
def projenrcPipelineL (l : List Char) : List Char :=
  let u1 := removePackageManagerLines l
  let u2 := removePnpmVersionLines u1
  let u3 :=
    if containsSubL "javascript.".toList (stripImportLines u2) then u2
    else removeJavascriptImport u2
  let u4 := r4Scan u3
  let u5 := commaBlankFix u4
  let u6 := openBraceBlankFix u5
  closeBraceBlankFix u6

/-- The whole `.projenrc.ts` content repair as a content transformation:
the rewrite chain runs only when the marker substring is present
(script.js lines 249-345); the file is rewritten with the result. -/
def projenrcTransform (l : List Char) : List Char :=
  if containsSubL markerL l then projenrcPipelineL l else l

/-- `with:\s*\n(\s+)version:\s*"9"` at the head of the input: after
`with:`, the whitespace run up to `version:` must contain a newline that
is not its last character. -/
def withVersionAt (l : List Char) : Bool :=
  match stripLit "with:".toList l with
  | none => false
  | some r1 =>
    let p := wsSplit r1
    (p.1.dropLast.contains '\n') &&
      (match stripLit "version:".toList p.2 with
       | none => false
       | some r2 =>
         let p2 := wsSplit r2
         (stripLit [dq, '9', dq] p2.2).isSome)

/-- Head match of `uses:\s*pnpm\/action-setup@v4` followed (lazily,
anywhere later) by the `with:`/`version:` tail. -/
def usesAt (l : List Char) : Bool :=
  match stripLit "uses:".toList l with
  | none => false
  | some r1 =>
    let p := wsSplit r1
    match stripLit "pnpm/action-setup@v4".toList p.2 with
    | none => false
    | some r2 => anySuffix withVersionAt r2

/-- `pnpmActionRegex.test(content)` (script.js lines 57-60). -/
def pnpmTestL (l : List Char) : Bool := anySuffix usesAt l

/-- The workflow-file content transformation of
`updateWorkflowPnpmVersions` (script.js lines 55-69): when the test
regex matches, globally replace `(\s+version:\s*)"9"` by `$110.22.0`;
otherwise the file is left untouched (the function `continue`s). -/
def pnpmWorkflowTransform (l : List Char) : List Char :=
  if pnpmTestL l then pnpmReplaceL l else l

/-- The fixed list of workflow files visited by
`updateWorkflowPnpmVersions` (script.js lines 19-23), in source order. -/
def workflowFilesList : List String :=
  [".github/workflows/build.yml",
   ".github/workflows/release.yml",
   ".github/workflows/update-projen-main.yml"]

/-- Trace of `updateWorkflowPnpmVersions` (script.js lines 13-104): each
workflow file on the PR branch is fetched; a missing file is skipped; a
file whose content fails the test regex is skipped; otherwise the
rewritten content is committed, but only when it differs from the
original. -/
def updateWorkflowActions (files : String → String → Option String)
    (branch : String) : List Action :=
  (workflowFilesList.map (fun p =>
    match files branch p with
    | none => []
    | some c =>
      if pnpmTestL c.toList then
        let u := pnpmReplaceL c.toList
        if u ≠ c.toList then [Action.commitFile branch p (String.mk u)] else []
      else [])).join

/-- Trace of the `.projenrc.ts` fix for projen PRs (script.js lines
210-363): when the file exists on the PR branch, the marker-guarded
rewrite commits only on an actual diff, and `updateWorkflowPnpmVersions`
then runs unconditionally (independent of the marker); when the file is
absent the whole block is skipped, including the workflow updates. -/
def contentRepairActions (files : String → String → Option String)
    (branch : String) : List Action :=
  match files branch ".projenrc.ts" with
  | none => []
  | some c =>
    (if containsSubL markerL c.toList then
       (let u := projenrcPipelineL c.toList
        if u ≠ c.toList then
          [Action.commitFile branch ".projenrc.ts" (String.mk u)]
        else [])
     else [])
    ++ updateWorkflowActions files branch

/-- Result of the PR loop: a `return` with a terminal outcome, or
falling through to the code after the loop (list exhausted, or the
`break` on a stale merged PR). -/
inductive LoopResult where
  | returned (out : Outcome)
  | fellThrough
deriving DecidableEq, Repr

/-- The merge actor (script.js lines 538-557): a manual squash merge is
requested only when merging is enabled and the auto-merge mutation did
not succeed; its commit title is `<PR title> (#<number>)`. -/
def mergeStep (o : Options) (env : Env) (pr : PullRequest)
    (acts : List Action) : List Action × LoopResult :=
  let autoMergeEnabled := o.merge && env.autoMergeSucceeds pr
  if o.merge && !autoMergeEnabled then
    (acts ++ [Action.manualMerge pr
        (pr.title ++ " (#" ++ toString pr.number ++ ")")],
     .returned (.mergedManually pr))
  else (acts, .returned (.readyNoManualMerge pr))

/-- Handling of the located candidate PR (script.js lines 210-557):
content repair for the projen variant, then the best-effort auto-merge
attempt whenever merging is enabled, then the status snapshot fetch and
the decision chain, with the approval actor and merge actor behind it. -/
def handleCandidate (o : Options) (mv : String) (env : Env)
    (pr : PullRequest) : List Action × LoopResult :=
  let repairActs :=
    if mv = "projen" then contentRepairActions env.files pr.head_ref else []
  let amActs := if o.merge then [Action.enableAutoMerge pr] else []
  let snap := env.snapshot pr
  let pre := repairActs ++ amActs ++ [Action.fetchSnapshot pr]
  match evaluate snap with
  | .skipCannotUpdate => (pre, .returned (.skipCannotUpdate pr))
  | .skipStatus => (pre, .returned (.skipStatus pr (combinedStatus snap)))
  | .skipMergeable => (pre, .returned (.skipMergeable pr))
  | .delegateApproval =>
    if !snap.viewerDidAuthor && !(viewerDidApprove snap) then
      let acts := pre ++ [Action.submitApproval pr snap.oid,
        Action.refetchReview pr]
      if env.newReviewDecision pr ≠ "APPROVED" then
        (acts, .returned (.awaitingApproval pr))
      else mergeStep o env pr acts
    else (pre, .returned (.awaitingApproval pr))
  | .delegateMerge => mergeStep o env pr pre

/-- The PR locator loop (script.js lines 176-558): skip title
mismatches; a merged match that is stale under `checkMaxAge` breaks out
of the loop (falling through to the rerun trigger); a merged match
otherwise is terminal; closed matches are skipped; a draft match is
terminal; the first remaining match is the candidate. -/
def processPRs (o : Options) (mv : String) (cfg : Config) (env : Env) :
    List PullRequest → List Action × LoopResult
  | [] => ([], .fellThrough)
  | pr :: rest =>
    if ¬ jsStartsWith pr.title cfg.expectedTitle then
      processPRs o mv cfg env rest
    else
      match pr.merged_at with
      | some t =>
        if cfg.checkMaxAge ∧ env.now - t > o.maxAgeDays * msPerDay then
          ([], .fellThrough)
        else ([], .returned (.alreadyMerged pr))
      | none =>
        if pr.closed_at.isSome then processPRs o mv cfg env rest
        else if pr.draft then ([], .returned (.draftPR pr))
        else handleCandidate o mv env pr

/-- `["in_progress","queued","requested","waiting","pending"]`
(script.js line 602). -/
def activeStatuses : List String :=
  ["in_progress", "queued", "requested", "waiting", "pending"]

/-- One comparison step of the descending stable sort by `run_number`:
keep the earlier run unless a strictly larger run number appears. -/
def pickNewer (best x : WorkflowRun) : WorkflowRun :=
  if best.run_number < x.run_number then x else best

/-- Run selection of the rerun trigger (script.js lines 589-593): filter
the workflow runs to head branch `"main"`, stable-sort descending by
`run_number`, take the first — i.e. the first listed run with the
maximal run number. -/
def selectLatestRun (runs : List WorkflowRun) : Option WorkflowRun :=
  match runs.filter (fun r => r.head_branch = "main") with
  | [] => none
  | r :: rs => some (rs.foldl pickNewer r)

/-- The rerun trigger (script.js lines 560-631): locate the variant's
workflow by path, pick the latest main-branch run, skip when it is in an
active/waiting status, throttle when it started less than 30 minutes
ago, otherwise request a rerun.  An empty filtered run list makes the JS
dereference `lastRun.run_started_at` throw; the outer catch swallows it,
so no rerun is requested (`noRunsError`). -/
def rerunStage (cfg : Config) (env : Env) : List Action × Outcome :=
  let workflowPath := ".github/workflows/" ++ cfg.workflowName ++ ".yml"
  match env.workflows.find? (fun w => w.path = workflowPath) with
  | none => ([], .missingWorkflow)
  | some wf =>
    match selectLatestRun (env.runsOf wf.wfId) with
    | none => ([], .noRunsError)
    | some lastRun =>
      if activeStatuses.contains (lastRun.status.getD "unknown") then
        ([], .stillRunning)
      else
        match lastRun.run_started_at with
        | some t =>
          if env.now - t < 30 * msPerMinute then ([], .throttled)
          else ([Action.rerunRequest lastRun.runId], .rerunTriggered)
        | none => ([Action.rerunRequest lastRun.runId], .rerunTriggered)

/-- The entire per-repository script (script.js lines 117-635). -/
def script (o : Options) (repo : Repository) (env : Env) :
    List Action × Outcome :=
  match o.majorVersion with
  | none => ([], .missingMajorVersion)
  | some mv =>
    let cfg := mkConfig mv o.library
    if repo.archived then ([], .archivedSkip)
    else if env.topics.contains noTouchTopicName then ([], .noTouchSkip)
    else
      match processPRs o mv cfg env env.prs with
      | (acts, .returned out) => (acts, out)
      | (acts, .fellThrough) =>
        let st := rerunStage cfg env
        (acts ++ Action.logNoPR :: st.1, st.2)

/-! ## Helper lemmas about the action trace -/

theorem updateWorkflowActions_shape {files : String → String → Option String}
    {br : String} {a : Action} (h : a ∈ updateWorkflowActions files br) :
    ∃ p c₀, p ∈ workflowFilesList ∧ files br p = some c₀ ∧
      pnpmTestL c₀.toList = true ∧ pnpmReplaceL c₀.toList ≠ c₀.toList ∧
      a = Action.commitFile br p (String.mk (pnpmReplaceL c₀.toList)) := by
  unfold updateWorkflowActions at h
  simp only [List.mem_join, List.mem_map] at h
  obtain ⟨l, ⟨p, hp, hl⟩, ha⟩ := h
  subst hl
  rcases hf : files br p with _ | c <;> rw [hf] at ha <;> dsimp only at ha
  · exact absurd ha (by simp)
  · by_cases htest : pnpmTestL c.toList
    · rw [if_pos htest] at ha
      by_cases hne : pnpmReplaceL c.toList ≠ c.toList
      · rw [if_pos hne] at ha
        simp only [List.mem_singleton] at ha
        exact ⟨p, c, hp, hf, htest, hne, ha⟩
      · rw [if_neg hne] at ha
        exact absurd ha (by simp)
    · rw [if_neg htest] at ha
      exact absurd ha (by simp)

theorem contentRepairActions_shape {files : String → String → Option String}
    {br : String} {a : Action} (h : a ∈ contentRepairActions files br) :
    ∃ p c, a = Action.commitFile br p c := by
  unfold contentRepairActions at h
  rcases hf : files br ".projenrc.ts" with _ | c <;> rw [hf] at h <;>
      dsimp only at h
  · exact absurd h (by simp)
  · rw [List.mem_append] at h
    rcases h with h | h
    · by_cases hm : containsSubL markerL c.toList
      · rw [if_pos hm] at h
        by_cases hne : projenrcPipelineL c.toList ≠ c.toList
        · rw [if_pos hne] at h
          simp only [List.mem_singleton] at h
          exact ⟨_, _, h⟩
        · rw [if_neg hne] at h
          exact absurd h (by simp)
      · rw [if_neg hm] at h
        exact absurd h (by simp)
    · obtain ⟨p, c₀, -, -, -, -, ha⟩ := updateWorkflowActions_shape h
      exact ⟨_, _, ha⟩

/-- Everything the candidate handler emits before the decision chain
resolves: repair commits, the auto-merge attempt, the snapshot fetch. -/
theorem mem_pre_shape {o : Options} {mv : String} {env : Env}
    {pr : PullRequest} {a : Action}
    (h : a ∈ (if mv = "projen" then
        contentRepairActions env.files pr.head_ref else []) ++
      (if o.merge then [Action.enableAutoMerge pr] else []) ++
      [Action.fetchSnapshot pr]) :
    (∃ b p c, a = Action.commitFile b p c) ∨ a = Action.enableAutoMerge pr ∨
      a = Action.fetchSnapshot pr := by
  simp only [List.mem_append, List.mem_singleton] at h
  rcases h with (h | h) | h
  · left
    by_cases hmv : mv = "projen"
    · rw [if_pos hmv] at h
      obtain ⟨p, c, ha⟩ := contentRepairActions_shape h
      exact ⟨_, _, _, ha⟩
    · rw [if_neg hmv] at h
      exact absurd h (by simp)
  · right; left
    by_cases hm : o.merge
    · rw [if_pos hm] at h
      simpa using h
    · rw [if_neg hm] at h
      exact absurd h (by simp)
  · right; right; exact h

theorem evaluate_of_not_success {s : Snapshot}
    (h : combinedStatus s ≠ "SUCCESS") :
    evaluate s = .skipCannotUpdate ∨ evaluate s = .skipStatus := by
  unfold evaluate
  by_cases hv : s.viewerCanUpdate
  · right
    rw [if_neg (by simpa using hv), if_pos h]
  · left
    rw [if_pos (by simpa using hv)]

theorem mergeStep_manualMerge {o : Options} {env : Env} {pr q : PullRequest}
    {acts : List Action} {t : String}
    (h : Action.manualMerge q t ∈ (mergeStep o env pr acts).1) :
    Action.manualMerge q t ∈ acts ∨
      (q = pr ∧ o.merge = true ∧ env.autoMergeSucceeds pr = false) := by
  unfold mergeStep at h
  dsimp only at h
  by_cases hc : (o.merge && !(o.merge && env.autoMergeSucceeds pr)) = true
  · rw [if_pos hc] at h
    simp only [List.mem_append, List.mem_singleton] at h
    rcases h with h | h
    · exact Or.inl h
    · simp only [Action.manualMerge.injEq] at h
      obtain ⟨hq, -⟩ := h
      simp only [Bool.and_eq_true, Bool.not_eq_true', Bool.and_eq_false_iff] at hc
      obtain ⟨hm, hs⟩ := hc
      rcases hs with hs | hs
      · rw [hm] at hs; exact absurd hs (by simp)
      · exact Or.inr ⟨hq, hm, hs⟩
  · rw [if_neg hc] at h
    exact Or.inl h

theorem mergeStep_no_approval {o : Options} {env : Env} {pr q : PullRequest}
    {acts : List Action} {cid : String}
    (h : Action.submitApproval q cid ∈ (mergeStep o env pr acts).1) :
    Action.submitApproval q cid ∈ acts := by
  unfold mergeStep at h
  dsimp only at h
  by_cases hc : (o.merge && !(o.merge && env.autoMergeSucceeds pr)) = true
  · rw [if_pos hc] at h
    simp only [List.mem_append, List.mem_singleton] at h
    rcases h with h | h
    · exact h
    · exact absurd h (by simp)
  · rw [if_neg hc] at h
    exact h

/-- Everything the candidate handler can emit, tagged with the candidate. -/
theorem handleCandidate_mem_shape {o : Options} {mv : String} {env : Env}
    {pr : PullRequest} {a : Action}
    (h : a ∈ (handleCandidate o mv env pr).1) :
    (∃ b p c, a = Action.commitFile b p c) ∨ a = Action.enableAutoMerge pr ∨
      a = Action.fetchSnapshot pr ∨
      (∃ cid, a = Action.submitApproval pr cid) ∨
      a = Action.refetchReview pr ∨ (∃ t, a = Action.manualMerge pr t) := by
  have hmerge : ∀ acts : List Action, a ∈ (mergeStep o env pr acts).1 →
      a ∈ acts ∨ ∃ t, a = Action.manualMerge pr t := by
    intro acts hm
    unfold mergeStep at hm
    dsimp only at hm
    by_cases hc : (o.merge && !(o.merge && env.autoMergeSucceeds pr)) = true
    · rw [if_pos hc] at hm
      simp only [List.mem_append, List.mem_singleton] at hm
      rcases hm with hm | hm
      · exact Or.inl hm
      · exact Or.inr ⟨_, hm⟩
    · rw [if_neg hc] at hm
      exact Or.inl hm
  unfold handleCandidate at h
  dsimp only at h
  rcases hev : evaluate (env.snapshot pr) with _ | _ | _ | _ | _ <;>
      rw [hev] at h <;> dsimp only at h
  · rcases mem_pre_shape h with ⟨b, p, c, ha⟩ | ha | ha
    · exact Or.inl ⟨b, p, c, ha⟩
    · exact Or.inr (Or.inl ha)
    · exact Or.inr (Or.inr (Or.inl ha))
  · rcases mem_pre_shape h with ⟨b, p, c, ha⟩ | ha | ha
    · exact Or.inl ⟨b, p, c, ha⟩
    · exact Or.inr (Or.inl ha)
    · exact Or.inr (Or.inr (Or.inl ha))
  · rcases mem_pre_shape h with ⟨b, p, c, ha⟩ | ha | ha
    · exact Or.inl ⟨b, p, c, ha⟩
    · exact Or.inr (Or.inl ha)
    · exact Or.inr (Or.inr (Or.inl ha))
  · by_cases hg : (!(env.snapshot pr).viewerDidAuthor &&
        !(viewerDidApprove (env.snapshot pr))) = true
    · rw [if_pos hg] at h
      have hmem : a ∈ ((if mv = "projen" then
            contentRepairActions env.files pr.head_ref else []) ++
          (if o.merge then [Action.enableAutoMerge pr] else []) ++
          [Action.fetchSnapshot pr]) ++
          [Action.submitApproval pr (env.snapshot pr).oid,
            Action.refetchReview pr] ∨
          ∃ t, a = Action.manualMerge pr t := by
        by_cases hnr : env.newReviewDecision pr ≠ "APPROVED"
        · rw [if_pos hnr] at h
          exact Or.inl h
        · rw [if_neg hnr] at h
          exact hmerge _ h
      rcases hmem with hmem | ⟨t, hmem⟩
      · rw [List.mem_append] at hmem
        rcases hmem with hmem | hmem
        · rcases mem_pre_shape hmem with ⟨b, p, c, ha⟩ | ha | ha
          · exact Or.inl ⟨b, p, c, ha⟩
          · exact Or.inr (Or.inl ha)
          · exact Or.inr (Or.inr (Or.inl ha))
        · simp only [List.mem_cons, List.mem_singleton] at hmem
          rcases hmem with hmem | hmem | hmem
          · exact Or.inr (Or.inr (Or.inr (Or.inl ⟨_, hmem⟩)))
          · exact Or.inr (Or.inr (Or.inr (Or.inr (Or.inl hmem))))
          · exact absurd hmem (by simp)
      · exact Or.inr (Or.inr (Or.inr (Or.inr (Or.inr ⟨t, hmem⟩))))
    · rw [if_neg hg] at h
      dsimp only at h
      rcases mem_pre_shape h with ⟨b, p, c, ha⟩ | ha | ha
      · exact Or.inl ⟨b, p, c, ha⟩
      · exact Or.inr (Or.inl ha)
      · exact Or.inr (Or.inr (Or.inl ha))
  · rcases hmerge _ h with hm | ⟨t, hm⟩
    · rcases mem_pre_shape hm with ⟨b, p, c, ha⟩ | ha | ha
      · exact Or.inl ⟨b, p, c, ha⟩
      · exact Or.inr (Or.inl ha)
      · exact Or.inr (Or.inr (Or.inl ha))
    · exact Or.inr (Or.inr (Or.inr (Or.inr (Or.inr ⟨t, hm⟩))))

/-- An approval submission in the candidate handler's trace pins down the
candidate, requires the decision chain to have reached the approval
actor, and requires the caller to be neither author nor prior approver. -/
theorem handleCandidate_submitApproval {o : Options} {mv : String} {env : Env}
    {pr q : PullRequest} {cid : String}
    (h : Action.submitApproval q cid ∈ (handleCandidate o mv env pr).1) :
    q = pr ∧ evaluate (env.snapshot pr) = .delegateApproval ∧
      (env.snapshot pr).viewerDidAuthor = false ∧
      viewerDidApprove (env.snapshot pr) = false := by
  unfold handleCandidate at h
  dsimp only at h
  rcases hev : evaluate (env.snapshot pr) with _ | _ | _ | _ | _ <;>
      rw [hev] at h <;> dsimp only at h
  · rcases mem_pre_shape h with ⟨b, p, c, ha⟩ | ha | ha <;>
      exact absurd ha (by simp)
  · rcases mem_pre_shape h with ⟨b, p, c, ha⟩ | ha | ha <;>
      exact absurd ha (by simp)
  · rcases mem_pre_shape h with ⟨b, p, c, ha⟩ | ha | ha <;>
      exact absurd ha (by simp)
  · by_cases hg : (!(env.snapshot pr).viewerDidAuthor &&
        !(viewerDidApprove (env.snapshot pr))) = true
    · rw [if_pos hg] at h
      simp only [Bool.and_eq_true, Bool.not_eq_true'] at hg
      obtain ⟨hauth, happr⟩ := hg
      have hmem : Action.submitApproval q cid ∈
          ((if mv = "projen" then
              contentRepairActions env.files pr.head_ref else []) ++
            (if o.merge then [Action.enableAutoMerge pr] else []) ++
            [Action.fetchSnapshot pr]) ++
            [Action.submitApproval pr (env.snapshot pr).oid,
              Action.refetchReview pr] := by
        by_cases hnr : env.newReviewDecision pr ≠ "APPROVED"
        · rw [if_pos hnr] at h
          exact h
        · rw [if_neg hnr] at h
          exact mergeStep_no_approval h
      rw [List.mem_append] at hmem
      rcases hmem with hmem | hmem
      · rcases mem_pre_shape hmem with ⟨b, p, c, ha⟩ | ha | ha <;>
          exact absurd ha (by simp)
      · simp only [List.mem_cons, List.mem_singleton] at hmem
        rcases hmem with hmem | hmem | hmem
        · simp only [Action.submitApproval.injEq] at hmem
          exact ⟨hmem.1, rfl, hauth, happr⟩
        · exact absurd hmem (by simp)
        · exact absurd hmem (by simp)
    · rw [if_neg hg] at h
      dsimp only at h
      rcases mem_pre_shape h with ⟨b, p, c, ha⟩ | ha | ha <;>
        exact absurd ha (by simp)
  · have h2 := mergeStep_no_approval h
    rcases mem_pre_shape h2 with ⟨b, p, c, ha⟩ | ha | ha <;>
      exact absurd ha (by simp)

/-- A manual merge in the candidate handler's trace pins down the
candidate, requires merging enabled, requires the auto-merge attempt to
have failed, and requires the decision chain to have passed the status
gates. -/
theorem handleCandidate_manualMerge {o : Options} {mv : String} {env : Env}
    {pr q : PullRequest} {t : String}
    (h : Action.manualMerge q t ∈ (handleCandidate o mv env pr).1) :
    q = pr ∧ o.merge = true ∧ env.autoMergeSucceeds pr = false ∧
      (evaluate (env.snapshot pr) = .delegateApproval ∨
        evaluate (env.snapshot pr) = .delegateMerge) := by
  unfold handleCandidate at h
  dsimp only at h
  rcases hev : evaluate (env.snapshot pr) with _ | _ | _ | _ | _ <;>
      rw [hev] at h <;> dsimp only at h
  · rcases mem_pre_shape h with ⟨b, p, c, ha⟩ | ha | ha <;>
      exact absurd ha (by simp)
  · rcases mem_pre_shape h with ⟨b, p, c, ha⟩ | ha | ha <;>
      exact absurd ha (by simp)
  · rcases mem_pre_shape h with ⟨b, p, c, ha⟩ | ha | ha <;>
      exact absurd ha (by simp)
  · by_cases hg : (!(env.snapshot pr).viewerDidAuthor &&
        !(viewerDidApprove (env.snapshot pr))) = true
    · rw [if_pos hg] at h
      by_cases hnr : env.newReviewDecision pr ≠ "APPROVED"
      · rw [if_pos hnr] at h
        dsimp only at h
        rw [List.mem_append] at h
        rcases h with h | h
        · rcases mem_pre_shape h with ⟨b, p, c, ha⟩ | ha | ha <;>
            exact absurd ha (by simp)
        · simp only [List.mem_cons, List.mem_singleton] at h
          rcases h with h | h | h <;> exact absurd h (by simp)
      · rw [if_neg hnr] at h
        rcases mergeStep_manualMerge h with hm | ⟨hq, hmg, hs⟩
        · rw [List.mem_append] at hm
          rcases hm with hm | hm
          · rcases mem_pre_shape hm with ⟨b, p, c, ha⟩ | ha | ha <;>
              exact absurd ha (by simp)
          · simp only [List.mem_cons, List.mem_singleton] at hm
            rcases hm with hm | hm | hm <;> exact absurd hm (by simp)
        · exact ⟨hq, hmg, hs, Or.inl rfl⟩
    · rw [if_neg hg] at h
      dsimp only at h
      rcases mem_pre_shape h with ⟨b, p, c, ha⟩ | ha | ha <;>
        exact absurd ha (by simp)
  · rcases mergeStep_manualMerge h with hm | ⟨hq, hmg, hs⟩
    · rcases mem_pre_shape hm with ⟨b, p, c, ha⟩ | ha | ha <;>
        exact absurd ha (by simp)
    · exact ⟨hq, hmg, hs, Or.inr rfl⟩

/-- Every action of the PR loop comes from the candidate handler applied
to some PR. -/
theorem processPRs_mem {o : Options} {mv : String} {cfg : Config} {env : Env}
    {prs : List PullRequest} {a : Action}
    (h : a ∈ (processPRs o mv cfg env prs).1) :
    ∃ pr, a ∈ (handleCandidate o mv env pr).1 := by
  induction prs with
  | nil => simp [processPRs] at h
  | cons pr rest ih =>
    unfold processPRs at h
    by_cases h1 : ¬ jsStartsWith pr.title cfg.expectedTitle
    · rw [if_pos h1] at h
      exact ih h
    · rw [if_neg h1] at h
      rcases hm : pr.merged_at with _ | t <;> rw [hm] at h <;> dsimp only at h
      · by_cases hc : pr.closed_at.isSome
        · rw [if_pos hc] at h
          exact ih h
        · rw [if_neg hc] at h
          by_cases hd : pr.draft
          · rw [if_pos hd] at h
            exact absurd h (by simp)
          · rw [if_neg hd] at h
            exact ⟨pr, h⟩
      · by_cases hs : cfg.checkMaxAge ∧ env.now - t > o.maxAgeDays * msPerDay
        · rw [if_pos hs] at h
          exact absurd h (by simp)
        · rw [if_neg hs] at h
          exact absurd h (by simp)

/-- Every action the rerun trigger emits is the single rerun request,
and emitting it certifies the guards: a workflow was found, a latest
main-branch run exists, its status is not active/waiting, and it is not
inside the 30-minute throttle window. -/
theorem rerunStage_mem {cfg : Config} {env : Env} {a : Action}
    (h : a ∈ (rerunStage cfg env).1) :
    ∃ wf lr, env.workflows.find? (fun w =>
        w.path = ".github/workflows/" ++ cfg.workflowName ++ ".yml") = some wf ∧
      selectLatestRun (env.runsOf wf.wfId) = some lr ∧
      a = Action.rerunRequest lr.runId ∧
      activeStatuses.contains (lr.status.getD "unknown") = false ∧
      (∀ t, lr.run_started_at = some t → 30 * msPerMinute ≤ env.now - t) := by
  unfold rerunStage at h
  dsimp only at h
  rcases hwf : env.workflows.find? (fun w =>
      w.path = ".github/workflows/" ++ cfg.workflowName ++ ".yml") with _ | wf <;>
      rw [hwf] at h <;> dsimp only at h
  · exact absurd h (by simp)
  · rcases hlr : selectLatestRun (env.runsOf wf.wfId) with _ | lr <;>
        rw [hlr] at h <;> dsimp only at h
    · exact absurd h (by simp)
    · by_cases hact : activeStatuses.contains (lr.status.getD "unknown") = true
      · rw [if_pos hact] at h
        exact absurd h (by simp)
      · rw [if_neg hact] at h
        rcases hst : lr.run_started_at with _ | t <;> rw [hst] at h <;>
            dsimp only at h
        · simp only [List.mem_singleton] at h
          refine ⟨wf, lr, hwf, hlr, h, by simpa using hact, ?_⟩
          intro t' ht'
          rw [hst] at ht'
          exact absurd ht' (by simp)
        · by_cases hth : env.now - t < 30 * msPerMinute
          · rw [if_pos hth] at h
            exact absurd h (by simp)
          · rw [if_neg hth] at h
            simp only [List.mem_singleton] at h
            refine ⟨wf, lr, hwf, hlr, h, by simpa using hact, ?_⟩
            intro t' ht'
            rw [hst] at ht'
            simp only [Option.some.injEq] at ht'
            subst ht'
            omega

/-- Every action of the whole script is either an action of the PR loop
(hence of the candidate handler), the no-PR log, or an action of the
rerun trigger under the derived configuration. -/
theorem script_mem {o : Options} {repo : Repository} {env : Env} {a : Action}
    (h : a ∈ (script o repo env).1) :
    (∃ mv pr, o.majorVersion = some mv ∧
        a ∈ (handleCandidate o mv env pr).1) ∨
      a = Action.logNoPR ∨
      (∃ mv, o.majorVersion = some mv ∧
        a ∈ (rerunStage (mkConfig mv o.library) env).1) := by
  unfold script at h
  rcases hmv : o.majorVersion with _ | mv <;> rw [hmv] at h <;> dsimp only at h
  · exact absurd h (by simp)
  · by_cases ha : repo.archived
    · rw [if_pos ha] at h
      exact absurd h (by simp)
    · rw [if_neg ha] at h
      by_cases ht : env.topics.contains noTouchTopicName = true
      · rw [if_pos ht] at h
        exact absurd h (by simp)
      · rw [if_neg ht] at h
        rcases hp : processPRs o mv (mkConfig mv o.library) env env.prs with
          ⟨acts, res⟩
        rw [hp] at h
        rcases res with out | _
        · dsimp only at h
          have : a ∈ (processPRs o mv (mkConfig mv o.library) env env.prs).1 := by
            rw [hp]; exact h
          obtain ⟨pr, hpr⟩ := processPRs_mem this
          exact Or.inl ⟨mv, pr, rfl, hpr⟩
        · dsimp only at h
          rw [List.mem_append] at h
          rcases h with h | h
          · have : a ∈ (processPRs o mv (mkConfig mv o.library) env env.prs).1 := by
              rw [hp]; exact h
            obtain ⟨pr, hpr⟩ := processPRs_mem this
            exact Or.inl ⟨mv, pr, rfl, hpr⟩
          · simp only [List.mem_cons] at h
            rcases h with h | h
            · exact Or.inr (Or.inl h)
            · exact Or.inr (Or.inr ⟨mv, rfl, h⟩)

/-! ## Concrete sample data for witnesses and counterexamples -/

def snapGreen : Snapshot :=
  { mergeable := "MERGEABLE", reviewDecision := "APPROVED",
    viewerCanUpdate := true, viewerDidAuthor := false,
    latestOpinionatedReviews := [], statusCheckRollup := some "SUCCESS",
    oid := "c0" }

def repoBase : Repository :=
  { full_name := "time-loop/sample", owner_login := "time-loop",
    name := "sample", archived := false, default_branch := "main" }

def prBase : PullRequest :=
  { id := 1, number := 42,
    title := "fix(deps): update dependency @time-loop/cdk-library to v11",
    merged_at := none, closed_at := none, draft := false,
    html_url := "u", head_ref := "br" }

def envBase : Env :=
  { topics := [], prs := [prBase], files := fun _ _ => none,
    snapshot := fun _ => snapGreen, autoMergeSucceeds := fun _ => false,
    newReviewDecision := fun _ => "APPROVED", workflows := [],
    runsOf := fun _ => [], now := 0 }

def optsBase : Options := { majorVersion := some "v11" }

def envC1 : Env :=
  { envBase with
    snapshot := fun _ => { snapGreen with statusCheckRollup := some "FAILURE" } }

/-! ## C1 -/

/-- C1 counterexample: with the default options, an open title-matching
PR whose snapshot reports a FAILURE rollup still receives the
auto-merge-enable attempt, because script.js issues the mutation (lines
365-396) before it fetches the status snapshot (lines 400-433).  So the
Merge Actor's auto-merge-enable attempt is invoked even though the CI
rollup is not success. -/
theorem autoMerge_attempted_despite_failing_ci :
    combinedStatus (envC1.snapshot prBase) ≠ "SUCCESS" ∧
      Action.enableAutoMerge prBase ∈ (script optsBase repoBase envC1).1 :=
  ⟨by decide, by decide⟩

/-- C1 amended: for every PR whose status snapshot has a CI rollup other
than success, the approval submission and the manual squash-merge are
never issued for that PR in that run (the auto-merge-enable attempt,
which precedes the snapshot fetch, is excepted). -/
theorem no_approval_or_manual_merge_when_ci_not_success (o : Options)
    (repo : Repository) (env : Env) (pr : PullRequest) (cid t : String)
    (h : combinedStatus (env.snapshot pr) ≠ "SUCCESS") :
    Action.submitApproval pr cid ∉ (script o repo env).1 ∧
      Action.manualMerge pr t ∉ (script o repo env).1 := by
  constructor
  · intro hmem
    rcases script_mem hmem with ⟨mv, q, hmv, hq⟩ | h2 | ⟨mv, hmv, h2⟩
    · obtain ⟨hqp, hev, -, -⟩ := handleCandidate_submitApproval hq
      subst hqp
      rcases evaluate_of_not_success h with he | he <;> rw [he] at hev <;>
        exact absurd hev (by simp)
    · exact absurd h2 (by simp)
    · obtain ⟨wf, lr, -, -, ha, -, -⟩ := rerunStage_mem h2
      exact absurd ha (by simp)
  · intro hmem
    rcases script_mem hmem with ⟨mv, q, hmv, hq⟩ | h2 | ⟨mv, hmv, h2⟩
    · obtain ⟨hqp, -, -, hev⟩ := handleCandidate_manualMerge hq
      subst hqp
      rcases evaluate_of_not_success h with he | he <;>
        rcases hev with hev | hev <;> rw [he] at hev <;>
        exact absurd hev (by simp)
    · exact absurd h2 (by simp)
    · obtain ⟨wf, lr, -, -, ha, -, -⟩ := rerunStage_mem h2
      exact absurd ha (by simp)

theorem no_approval_or_manual_merge_when_ci_not_success_witness :
    Action.submitApproval prBase "c0" ∉ (script optsBase repoBase envC1).1 ∧
      Action.manualMerge prBase "t" ∉ (script optsBase repoBase envC1).1 :=
  no_approval_or_manual_merge_when_ci_not_success optsBase repoBase envC1
    prBase "c0" "t" (by decide)

/-! ## C2 -/

/-- Helper: the PR loop on a list whose first title match is merged and
stale under `checkMaxAge` emits nothing and falls through, whatever
follows the stale match (script.js line 193 `break`). -/
theorem processPRs_stale_break (o : Options) (mv : String) (cfg : Config)
    (env : Env) (before after : List PullRequest) (p : PullRequest) (t : Int)
    (hb : ∀ q ∈ before, ¬ jsStartsWith q.title cfg.expectedTitle)
    (hm : jsStartsWith p.title cfg.expectedTitle)
    (ht : p.merged_at = some t)
    (hc : cfg.checkMaxAge = true)
    (hs : env.now - t > o.maxAgeDays * msPerDay) :
    processPRs o mv cfg env (before ++ p :: after) = ([], .fellThrough) := by
  induction before with
  | nil =>
    rw [List.nil_append]
    unfold processPRs
    rw [if_neg (by simp [hm])]
    rw [ht]
    dsimp only
    rw [if_pos ⟨hc, hs⟩]
  | cons q qs ih =>
    rw [List.cons_append]
    unfold processPRs
    rw [if_pos (hb q (List.mem_cons_self q qs))]
    exact ih (fun r hr => hb r (List.mem_cons_of_mem q hr))

/-- C2: when the first title-matching PR of the list is merged and, with
recency checking on, older than the configured maximum, the locator
stops scanning entirely: the loop's result does not depend on any later
PR (even one that would match and qualify), and control falls through. -/
theorem locator_halts_at_stale_merged_match (o : Options) (mv : String)
    (cfg : Config) (env : Env) (before after : List PullRequest)
    (p : PullRequest) (t : Int)
    (hb : ∀ q ∈ before, ¬ jsStartsWith q.title cfg.expectedTitle)
    (hm : jsStartsWith p.title cfg.expectedTitle)
    (ht : p.merged_at = some t)
    (hc : cfg.checkMaxAge = true)
    (hs : env.now - t > o.maxAgeDays * msPerDay) :
    processPRs o mv cfg env (before ++ p :: after) = ([], .fellThrough) :=
  processPRs_stale_break o mv cfg env before after p t hb hm ht hc hs

def optsAll : Options := { majorVersion := some "all" }

def prNoise : PullRequest :=
  { prBase with id := 2, number := 2, title := "chore: unrelated" }

def prStale : PullRequest :=
  { prBase with
    id := 3
    number := 3
    title := "fix(deps): update all non-major dependencies"
    merged_at := some 0
    closed_at := some 0 }

def prFresh : PullRequest :=
  { prBase with
    id := 4
    number := 4
    title := "fix(deps): update all non-major dependencies" }

def envC2 : Env := { envBase with now := 100 * msPerDay }

theorem locator_halts_at_stale_merged_match_witness :
    processPRs optsAll "all" (mkConfig "all" "@time-loop/cdk-library") envC2
      ([prNoise] ++ prStale :: [prFresh]) = ([], .fellThrough) :=
  locator_halts_at_stale_merged_match optsAll "all"
    (mkConfig "all" "@time-loop/cdk-library") envC2 [prNoise] [prFresh]
    prStale 0 (by decide) (by decide) (by decide) (by decide) (by decide)

/-! ## C3 -/

/-- C3 counterexample: with merging enabled and a green snapshot, when
the auto-merge-enable mutation fails (its success oracle is `false`) the
script issues the mutation and then also issues the manual squash-merge
for the same PR in the same run — so the two calls are not mutually
exclusive as issued requests. -/
theorem both_merge_calls_issued :
    Action.enableAutoMerge prBase ∈ (script optsBase repoBase envBase).1 ∧
      Action.manualMerge prBase
          "fix(deps): update dependency @time-loop/cdk-library to v11 (#42)" ∈
        (script optsBase repoBase envBase).1 :=
  ⟨by decide, by decide⟩

/-- C3 amended: the manual squash-merge is issued for a PR only when
merging is enabled and the auto-merge-enable attempt did not succeed for
it — a successfully enabled auto-merge and a manual merge never both
happen for the same PR in the same run. -/
theorem manual_merge_only_when_autoMerge_not_enabled (o : Options)
    (repo : Repository) (env : Env) (pr : PullRequest) (t : String)
    (h : Action.manualMerge pr t ∈ (script o repo env).1) :
    o.merge = true ∧ env.autoMergeSucceeds pr = false := by
  rcases script_mem h with ⟨mv, q, hmv, hq⟩ | h2 | ⟨mv, hmv, h2⟩
  · obtain ⟨hqp, hm, hs, -⟩ := handleCandidate_manualMerge hq
    subst hqp
    exact ⟨hm, hs⟩
  · exact absurd h2 (by simp)
  · obtain ⟨wf, lr, -, -, ha, -, -⟩ := rerunStage_mem h2
    exact absurd ha (by simp)

theorem manual_merge_only_when_autoMerge_not_enabled_witness :
    optsBase.merge = true ∧ envBase.autoMergeSucceeds prBase = false :=
  manual_merge_only_when_autoMerge_not_enabled optsBase repoBase envBase prBase
    "fix(deps): update dependency @time-loop/cdk-library to v11 (#42)"
    (by decide)

/-! ## C4 -/

/-- C4: the mergeability evaluator applies its decision table in exactly
the source order with first match winning and later fields ignored:
(1) caller cannot update → skip, regardless of every other field;
(2) CI rollup ≠ success → skip, regardless of mergeability and review;
(3) an absent rollup is treated as pending, hence also a status skip;
(4) not definitively mergeable → skip; (5) review not approved →
delegate to the approval actor; (6) otherwise delegate to the merge
actor. -/
theorem evaluator_decision_order (s1 s2 s3 s4 s5 s6 : Snapshot)
    (h1 : s1.viewerCanUpdate = false)
    (h2 : s2.viewerCanUpdate = true) (h2s : combinedStatus s2 ≠ "SUCCESS")
    (h3 : s3.viewerCanUpdate = true) (h3r : s3.statusCheckRollup = none)
    (h4 : s4.viewerCanUpdate = true) (h4s : combinedStatus s4 = "SUCCESS")
    (h4m : s4.mergeable ≠ "MERGEABLE")
    (h5 : s5.viewerCanUpdate = true) (h5s : combinedStatus s5 = "SUCCESS")
    (h5m : s5.mergeable = "MERGEABLE") (h5r : s5.reviewDecision ≠ "APPROVED")
    (h6 : s6.viewerCanUpdate = true) (h6s : combinedStatus s6 = "SUCCESS")
    (h6m : s6.mergeable = "MERGEABLE") (h6r : s6.reviewDecision = "APPROVED") :
    evaluate s1 = .skipCannotUpdate ∧ evaluate s2 = .skipStatus ∧
      evaluate s3 = .skipStatus ∧ evaluate s4 = .skipMergeable ∧
      evaluate s5 = .delegateApproval ∧ evaluate s6 = .delegateMerge := by
  have hp3 : combinedStatus s3 = "PENDING" := by
    unfold combinedStatus
    rw [h3r]
  refine ⟨?_, ?_, ?_, ?_, ?_, ?_⟩
  · simp [evaluate, h1]
  · simp [evaluate, h2, h2s]
  · simp [evaluate, h3, hp3]
  · simp [evaluate, h4, h4s, h4m]
  · simp [evaluate, h5, h5s, h5m, h5r]
  · simp [evaluate, h6, h6s, h6m, h6r]

def snapCannotUpdate : Snapshot := { snapGreen with viewerCanUpdate := false }

def snapFailing : Snapshot := { snapGreen with statusCheckRollup := some "FAILURE" }

def snapNoRollup : Snapshot := { snapGreen with statusCheckRollup := none }

def snapConflicting : Snapshot := { snapGreen with mergeable := "CONFLICTING" }

def snapUnreviewed : Snapshot := { snapGreen with reviewDecision := "REVIEW_REQUIRED" }

theorem evaluator_decision_order_witness :
    evaluate snapCannotUpdate = .skipCannotUpdate ∧
      evaluate snapFailing = .skipStatus ∧
      evaluate snapNoRollup = .skipStatus ∧
      evaluate snapConflicting = .skipMergeable ∧
      evaluate snapUnreviewed = .delegateApproval ∧
      evaluate snapGreen = .delegateMerge :=
  evaluator_decision_order snapCannotUpdate snapFailing snapNoRollup
    snapConflicting snapUnreviewed snapGreen rfl rfl (by decide) rfl rfl rfl
    (by decide) (by decide) rfl (by decide) rfl (by decide) rfl (by decide)
    rfl rfl

/-! ## C6 -/

/-- Helper: when the first title match is open and not a draft, the loop
result is exactly the candidate handler applied to it. -/
theorem processPRs_candidate (o : Options) (mv : String) (cfg : Config)
    (env : Env) (before after : List PullRequest) (p : PullRequest)
    (hb : ∀ q ∈ before, ¬ jsStartsWith q.title cfg.expectedTitle)
    (hm : jsStartsWith p.title cfg.expectedTitle)
    (hmg : p.merged_at = none) (hcl : p.closed_at = none)
    (hd : p.draft = false) :
    processPRs o mv cfg env (before ++ p :: after) =
      handleCandidate o mv env p := by
  induction before with
  | nil =>
    rw [List.nil_append]
    unfold processPRs
    rw [if_neg (by simp [hm])]
    rw [hmg]
    dsimp only
    rw [if_neg (by simp [hcl]), if_neg (by simp [hd])]
  | cons q qs ih =>
    rw [List.cons_append]
    unfold processPRs
    rw [if_pos (hb q (List.mem_cons_self q qs))]
    exact ih (fun r hr => hb r (List.mem_cons_of_mem q hr))

/-- Helper: when the decision chain reaches the approval actor but the
caller authored the PR or already approved it, the handler is terminal
with "awaiting approval" and performs nothing beyond the pre-decision
actions. -/
theorem handleCandidate_approval_guard {o : Options} {mv : String}
    {env : Env} {pr : PullRequest}
    (hev : evaluate (env.snapshot pr) = .delegateApproval)
    (hauth : (env.snapshot pr).viewerDidAuthor = true ∨
      viewerDidApprove (env.snapshot pr) = true) :
    (handleCandidate o mv env pr).2 =
      .returned (.awaitingApproval pr) := by
  unfold handleCandidate
  dsimp only
  rw [hev]
  dsimp only
  rw [if_neg (by
    simp only [Bool.and_eq_true, Bool.not_eq_true']
    intro hcon
    rcases hauth with ha | ha
    · rw [ha] at hcon
      exact absurd hcon.1 (by simp)
    · rw [ha] at hcon
      exact absurd hcon.2 (by simp))]

/-- C6: when the caller authored the PR or already appears among the
latest opinionated approving reviews, the approval-review submission is
never issued for that PR, and — when the decision chain has reached the
approval actor because the review decision is not approved — the
repository is skipped with the terminal "awaiting approval" outcome. -/
theorem no_self_or_duplicate_approval (o : Options) (repo : Repository)
    (env : Env) (mv : String) (before after : List PullRequest)
    (p : PullRequest) (cid : String)
    (hauth : (env.snapshot p).viewerDidAuthor = true ∨
      viewerDidApprove (env.snapshot p) = true)
    (hb : ∀ q ∈ before,
      ¬ jsStartsWith q.title (mkConfig mv o.library).expectedTitle)
    (hm : jsStartsWith p.title (mkConfig mv o.library).expectedTitle)
    (hmg : p.merged_at = none) (hcl : p.closed_at = none)
    (hd : p.draft = false)
    (hev : evaluate (env.snapshot p) = .delegateApproval) :
    Action.submitApproval p cid ∉ (script o repo env).1 ∧
      (processPRs o mv (mkConfig mv o.library) env (before ++ p :: after)).2 =
        .returned (.awaitingApproval p) := by
  constructor
  · intro hmem
    rcases script_mem hmem with ⟨mv2, q, hmv2, hq⟩ | h2 | ⟨mv2, hmv2, h2⟩
    · obtain ⟨hqp, -, hna, hnd⟩ := handleCandidate_submitApproval hq
      subst hqp
      rcases hauth with ha | ha
      · rw [ha] at hna
        exact absurd hna (by simp)
      · rw [ha] at hnd
        exact absurd hnd (by simp)
    · exact absurd h2 (by simp)
    · obtain ⟨wf, lr, -, -, ha, -, -⟩ := rerunStage_mem h2
      exact absurd ha (by simp)
  · rw [processPRs_candidate o mv (mkConfig mv o.library) env before after p
      hb hm hmg hcl hd]
    exact handleCandidate_approval_guard hev hauth

def envC6 : Env :=
  { envBase with
    snapshot := fun _ =>
      { snapGreen with
        reviewDecision := "REVIEW_REQUIRED"
        viewerDidAuthor := true } }

theorem no_self_or_duplicate_approval_witness :
    Action.submitApproval prBase "c0" ∉ (script optsBase repoBase envC6).1 ∧
      (processPRs optsBase "v11" (mkConfig "v11" "@time-loop/cdk-library")
          envC6 ([] ++ prBase :: [])).2 =
        .returned (.awaitingApproval prBase) :=
  no_self_or_duplicate_approval optsBase repoBase envC6 "v11" [] [] prBase
    "c0" (by decide) (by decide) (by decide) (by decide) (by decide)
    (by decide) (by decide)

/-! ## C7 -/

/-- C7: the rerun trigger never issues a rerun request while the
selected latest run is in one of the active/waiting states, and never
while its recorded start time is less than 30 minutes before now. -/
theorem rerun_never_fires_when_active_or_recent (o : Options)
    (repo : Repository) (env : Env) (mv : String) (wf : Workflow)
    (lr : WorkflowRun) (rid : Int)
    (hmv : o.majorVersion = some mv)
    (hwf : env.workflows.find? (fun w => w.path =
      ".github/workflows/" ++ (mkConfig mv o.library).workflowName ++ ".yml") =
      some wf)
    (hlr : selectLatestRun (env.runsOf wf.wfId) = some lr)
    (hblock : activeStatuses.contains (lr.status.getD "unknown") = true ∨
      ∃ t, lr.run_started_at = some t ∧ env.now - t < 30 * msPerMinute) :
    Action.rerunRequest rid ∉ (script o repo env).1 := by
  intro hmem
  rcases script_mem hmem with ⟨mv2, q, hmv2, hq⟩ | h2 | ⟨mv2, hmv2, h2⟩
  · rcases handleCandidate_mem_shape hq with
      ⟨b, p, c, ha⟩ | ha | ha | ⟨cid, ha⟩ | ha | ⟨t, ha⟩ <;>
      exact absurd ha (by simp)
  · exact absurd h2 (by simp)
  · rw [hmv] at hmv2
    simp only [Option.some.injEq] at hmv2
    subst hmv2
    obtain ⟨wf2, lr2, hwf2, hlr2, -, hact, hth⟩ := rerunStage_mem h2
    rw [hwf] at hwf2
    simp only [Option.some.injEq] at hwf2
    subst hwf2
    rw [hlr] at hlr2
    simp only [Option.some.injEq] at hlr2
    subst hlr2
    rcases hblock with hb | ⟨t, hts, htl⟩
    · rw [hb] at hact
      exact absurd hact (by simp)
    · have := hth t hts
      omega

def wfRenovate : Workflow := { wfId := 7, path := ".github/workflows/renovate.yml" }

def runRecent : WorkflowRun :=
  { runId := 20, run_number := 3, head_branch := "main",
    status := some "completed", run_started_at := some 0 }

def envC7 : Env :=
  { envBase with
    prs := []
    workflows := [wfRenovate]
    runsOf := fun _ => [runRecent]
    now := 10 * msPerMinute }

theorem rerun_never_fires_when_active_or_recent_witness :
    Action.rerunRequest 20 ∉ (script optsBase repoBase envC7).1 :=
  rerun_never_fires_when_active_or_recent optsBase repoBase envC7 "v11"
    wfRenovate runRecent 20 (by decide) (by decide) (by decide)
    (Or.inr ⟨0, by decide, by decide⟩)

/-! ## C8 -/

theorem foldl_pickNewer_mem (r : WorkflowRun) (rs : List WorkflowRun) :
    rs.foldl pickNewer r ∈ r :: rs := by
  induction rs generalizing r with
  | nil => simp
  | cons x xs ih =>
    simp only [List.foldl_cons]
    have h := ih (pickNewer r x)
    by_cases hc : r.run_number < x.run_number
    · have hp : pickNewer r x = x := by unfold pickNewer; rw [if_pos hc]
      rw [hp] at h ⊢
      simp only [List.mem_cons] at h ⊢
      tauto
    · have hp : pickNewer r x = r := by unfold pickNewer; rw [if_neg hc]
      rw [hp] at h ⊢
      simp only [List.mem_cons] at h ⊢
      tauto

theorem foldl_pickNewer_ge (r : WorkflowRun) (rs : List WorkflowRun) :
    ∀ q ∈ r :: rs, q.run_number ≤ (rs.foldl pickNewer r).run_number := by
  induction rs generalizing r with
  | nil =>
    intro q hq
    simp only [List.mem_singleton] at hq
    subst hq
    simp
  | cons x xs ih =>
    intro q hq
    simp only [List.foldl_cons]
    have hstep : r.run_number ≤ (pickNewer r x).run_number ∧
        x.run_number ≤ (pickNewer r x).run_number := by
      unfold pickNewer
      by_cases hc : r.run_number < x.run_number
      · rw [if_pos hc]
        omega
      · rw [if_neg hc]
        omega
    simp only [List.mem_cons] at hq
    rcases hq with hq | hq | hq
    · rw [hq]
      exact le_trans hstep.1 (ih (pickNewer r x) _ (List.mem_cons_self _ _))
    · rw [hq]
      exact le_trans hstep.2 (ih (pickNewer r x) _ (List.mem_cons_self _ _))
    · exact ih (pickNewer r x) q (List.mem_cons_of_mem _ hq)

/-- Modelled from the spec for comparison: "Lists that workflow's runs,
filters to the default branch, and selects the highest run-number as
latest" — the same selection but filtered to the repository's default
branch instead of the fixed name "main". -/
def selectLatestRunPerSpec (defaultBranch : String)
    (runs : List WorkflowRun) : Option WorkflowRun :=
  match runs.filter (fun r => r.head_branch = defaultBranch) with
  | [] => none
  | r :: rs => some (rs.foldl pickNewer r)

def runDev : WorkflowRun :=
  { runId := 10, run_number := 5, head_branch := "develop",
    status := some "completed", run_started_at := some 0 }

def runMain : WorkflowRun :=
  { runId := 11, run_number := 1, head_branch := "main",
    status := some "completed", run_started_at := some 0 }

/-- C8 counterexample: the code filters runs to the literal branch name
"main", not to the repository's default branch.  On a repository whose
default branch is "develop", with a run-number-5 run on "develop" and a
run-number-1 run on "main", the code selects the "main" run while the
spec's selection rule picks the "develop" run. -/
theorem selectLatestRun_ignores_default_branch :
    selectLatestRun [runDev, runMain] = some runMain ∧
      selectLatestRunPerSpec "develop" [runDev, runMain] = some runDev ∧
      selectLatestRun [runDev, runMain] ≠
        selectLatestRunPerSpec "develop" [runDev, runMain] :=
  ⟨by decide, by decide, by decide⟩

/-- C8 amended: the rerun trigger filters the workflow's runs to the
fixed branch name "main" and selects as latest a run of that branch with
the maximal run-number among them. -/
theorem selectLatestRun_max_on_main (runs : List WorkflowRun)
    (lr : WorkflowRun) (h : selectLatestRun runs = some lr) :
    lr.head_branch = "main" ∧ lr ∈ runs ∧
      ∀ q ∈ runs, q.head_branch = "main" → q.run_number ≤ lr.run_number := by
  unfold selectLatestRun at h
  rcases hf : runs.filter (fun r => r.head_branch = "main") with _ | ⟨r, rs⟩ <;>
      rw [hf] at h <;> dsimp only at h
  · exact absurd h (by simp)
  · simp only [Option.some.injEq] at h
    subst h
    have hmem : rs.foldl pickNewer r ∈ r :: rs := foldl_pickNewer_mem r rs
    have hmemf : rs.foldl pickNewer r ∈
        runs.filter (fun r => r.head_branch = "main") := by
      rw [hf]
      exact hmem
    rw [List.mem_filter] at hmemf
    refine ⟨by simpa using hmemf.2, hmemf.1, ?_⟩
    intro q hq hqb
    have hqf : q ∈ runs.filter (fun r => r.head_branch = "main") := by
      rw [List.mem_filter]
      exact ⟨hq, by simpa using hqb⟩
    rw [hf] at hqf
    exact foldl_pickNewer_ge r rs q hqf

theorem selectLatestRun_max_on_main_witness :
    runMain.head_branch = "main" ∧ runMain ∈ [runDev, runMain] ∧
      ∀ q ∈ [runDev, runMain], q.head_branch = "main" →
        q.run_number ≤ runMain.run_number :=
  selectLatestRun_max_on_main [runDev, runMain] runMain (by decide)

/-! ## C9 -/

/-- C9: in the projen variant's content repair, (1) the pnpm workflow
rewriting reads only the workflow files, so it is the same whatever the
`.projenrc.ts` content is — in particular whether or not the deprecated
marker was found; (2) the repair trace is the marker-guarded `.projenrc.ts`
commit (if any) followed by exactly that workflow rewriting; (3) a
workflow-file commit happens only when the rewritten content actually
differs from the fetched content. -/
theorem workflow_rewrite_independent_and_diff_guarded
    (files files' : String → String → Option String) (br p u c : String)
    (hagree : ∀ q ∈ workflowFilesList, files br q = files' br q)
    (hf : files br ".projenrc.ts" = some c)
    (hcm : Action.commitFile br p u ∈ updateWorkflowActions files br) :
    updateWorkflowActions files br = updateWorkflowActions files' br ∧
      (∃ pre, contentRepairActions files br =
          pre ++ updateWorkflowActions files br ∧
        ∀ a ∈ pre, ∃ w, a = Action.commitFile br ".projenrc.ts" w) ∧
      ∃ c₀, files br p = some c₀ ∧ u ≠ c₀ := by
  refine ⟨?_, ?_, ?_⟩
  · unfold updateWorkflowActions
    congr 1
    apply List.map_congr_left
    intro q hq
    rw [hagree q hq]
  · unfold contentRepairActions
    rw [hf]
    dsimp only
    refine ⟨_, rfl, ?_⟩
    intro a ha
    by_cases hm : containsSubL markerL c.toList
    · rw [if_pos hm] at ha
      by_cases hne : projenrcPipelineL c.toList ≠ c.toList
      · rw [if_pos hne] at ha
        simp only [List.mem_singleton] at ha
        exact ⟨_, ha⟩
      · rw [if_neg hne] at ha
        exact absurd ha (by simp)
    · rw [if_neg hm] at ha
      exact absurd ha (by simp)
  · obtain ⟨p2, c₀, -, hfile, -, hne, ha⟩ := updateWorkflowActions_shape hcm
    simp only [Action.commitFile.injEq] at ha
    obtain ⟨-, hp2, hu⟩ := ha
    subst hp2
    refine ⟨c₀, hfile, ?_⟩
    intro hcontra
    apply hne
    have : u.data = c₀.data := by rw [hcontra]
    rw [hu] at this
    simpa [String.toList] using this

def wfC9Content : String :=
  "      - uses: pnpm/action-setup@v4\n        with:\n          version: \"9\"\n"

def wfC9After : String :=
  "      - uses: pnpm/action-setup@v4\n        with:\n          version: 10.22.0\n"

def projenrcMarker : String :=
  "const x = 1;\n  packageManager: javascript.NodePackageManager.PNPM,\n"

def projenrcClean : String := "const x = 1;\n"

def filesC9 : String → String → Option String := fun _ q =>
  if q = ".github/workflows/build.yml" then some wfC9Content
  else if q = ".projenrc.ts" then some projenrcMarker
  else none

def filesC9x : String → String → Option String := fun _ q =>
  if q = ".github/workflows/build.yml" then some wfC9Content
  else if q = ".projenrc.ts" then some projenrcClean
  else none

theorem workflow_rewrite_independent_and_diff_guarded_witness :
    updateWorkflowActions filesC9 "br" = updateWorkflowActions filesC9x "br" ∧
      (∃ pre, contentRepairActions filesC9 "br" =
          pre ++ updateWorkflowActions filesC9 "br" ∧
        ∀ a ∈ pre, ∃ w, a = Action.commitFile "br" ".projenrc.ts" w) ∧
      ∃ c₀, filesC9 "br" ".github/workflows/build.yml" = some c₀ ∧
        wfC9After ≠ c₀ :=
  workflow_rewrite_independent_and_diff_guarded filesC9 filesC9x "br"
    ".github/workflows/build.yml" wfC9After projenrcMarker (by decide)
    (by decide) (by decide)

/-! ## C10 -/

/-- C10: when the first title-matching PR is merged and stale (the
locator's early exit), the repository is treated as having no PR at all:
the script logs the no-PR outcome and proceeds to the rerun trigger,
whose actions and outcome become the script's, instead of terminating as
already satisfied. -/
theorem stale_merged_match_falls_through_to_rerun (o : Options)
    (repo : Repository) (env : Env) (mv : String)
    (before after : List PullRequest) (p : PullRequest) (t : Int)
    (hmv : o.majorVersion = some mv)
    (har : repo.archived = false)
    (htp : env.topics.contains noTouchTopicName = false)
    (hprs : env.prs = before ++ p :: after)
    (hb : ∀ q ∈ before,
      ¬ jsStartsWith q.title (mkConfig mv o.library).expectedTitle)
    (hm : jsStartsWith p.title (mkConfig mv o.library).expectedTitle)
    (ht : p.merged_at = some t)
    (hc : (mkConfig mv o.library).checkMaxAge = true)
    (hs : env.now - t > o.maxAgeDays * msPerDay) :
    script o repo env =
      (Action.logNoPR :: (rerunStage (mkConfig mv o.library) env).1,
        (rerunStage (mkConfig mv o.library) env).2) := by
  unfold script
  rw [hmv]
  dsimp only
  rw [if_neg (by rw [har]; simp), if_neg (by rw [htp]; simp), hprs,
    processPRs_stale_break o mv (mkConfig mv o.library) env before after p t
      hb hm ht hc hs]
  simp

def runOld : WorkflowRun :=
  { runId := 30, run_number := 9, head_branch := "main",
    status := some "completed", run_started_at := some 0 }

def envC10 : Env :=
  { envBase with
    prs := [prStale]
    workflows := [wfRenovate]
    runsOf := fun _ => [runOld]
    now := 100 * msPerDay }

theorem stale_merged_match_falls_through_to_rerun_witness :
    script optsAll repoBase envC10 =
      (Action.logNoPR ::
          (rerunStage (mkConfig "all" "@time-loop/cdk-library") envC10).1,
        (rerunStage (mkConfig "all" "@time-loop/cdk-library") envC10).2) :=
  stale_merged_match_falls_through_to_rerun optsAll repoBase envC10 "all"
    [] [] prStale 0 (by decide) (by decide) (by decide) (by decide)
    (by decide) (by decide) (by decide) (by decide) (by decide)

/-! ## Unfolding equations for the fuelled scanners

Fuel at least the input length is always enough, because every scanner
step consumes at least one character; with that, each scanner satisfies
the natural recursion equations. -/

theorem pnpmReplaceGo_step (k : Nat) (c : Char) (t : List Char) :
    pnpmReplaceGo (k + 1) (c :: t) =
      match pnpmMatchAt (c :: t) with
      | some (e, r) => e ++ pnpmReplaceGo k r
      | none => c :: pnpmReplaceGo k t := rfl

theorem pnpmReplaceGo_eq (n : Nat) :
    ∀ l : List Char, l.length ≤ n →
      pnpmReplaceGo n l = pnpmReplaceGo l.length l := by
  induction n using Nat.strong_induction_on with
  | _ n ih =>
    intro l hl
    match n, l with
    | 0, l =>
      have hnil : l = [] := by
        cases l with
        | nil => rfl
        | cons c t => simp at hl
      subst hnil
      rfl
    | n + 1, [] => rfl
    | n + 1, c :: t =>
      rw [pnpmReplaceGo_step n c t]
      simp only [List.length_cons]
      rw [pnpmReplaceGo_step t.length c t]
      rcases hm : pnpmMatchAt (c :: t) with _ | ⟨e, r⟩ <;> dsimp only
      · have hlt : t.length ≤ n := by
          simp only [List.length_cons] at hl
          omega
        rw [ih n (by omega) t hlt, ih t.length (by omega) t (le_refl _)]
      · have hr := pnpmMatchAt_rest_lt hm
        simp only [List.length_cons] at hr hl
        rw [ih n (by omega) r (by omega), ih t.length (by omega) r (by omega)]

theorem pnpmReplaceL_nil : pnpmReplaceL [] = [] := rfl

theorem pnpmReplaceL_cons (c : Char) (t : List Char) :
    pnpmReplaceL (c :: t) =
      match pnpmMatchAt (c :: t) with
      | some (e, r) => e ++ pnpmReplaceL r
      | none => c :: pnpmReplaceL t := by
  show pnpmReplaceGo ((c :: t).length) (c :: t) = _
  simp only [List.length_cons]
  rw [pnpmReplaceGo_step t.length c t]
  rcases hm : pnpmMatchAt (c :: t) with _ | ⟨e, r⟩ <;> dsimp only
  · rw [pnpmReplaceGo_eq t.length t (le_refl _)]
    rfl
  · have hr := pnpmMatchAt_rest_lt hm
    simp only [List.length_cons] at hr
    rw [pnpmReplaceGo_eq t.length r (by omega)]
    rfl

theorem replScanGo_step (m : List Char → Option (List Char × List Char))
    (k : Nat) (c : Char) (t : List Char) :
    replScanGo m (k + 1) (c :: t) =
      match m (c :: t) with
      | some (e, r) => e ++ replScanGo m k r
      | none => c :: replScanGo m k t := rfl

theorem replScanGo_eq (m : List Char → Option (List Char × List Char))
    (hm : ∀ l e r, m l = some (e, r) → r.length < l.length) (n : Nat) :
    ∀ l : List Char, l.length ≤ n → replScanGo m n l = replScanGo m l.length l := by
  induction n using Nat.strong_induction_on with
  | _ n ih =>
    intro l hl
    match n, l with
    | 0, l =>
      have hnil : l = [] := by
        cases l with
        | nil => rfl
        | cons c t => simp at hl
      subst hnil
      rfl
    | n + 1, [] => rfl
    | n + 1, c :: t =>
      rw [replScanGo_step m n c t]
      simp only [List.length_cons]
      rw [replScanGo_step m t.length c t]
      rcases hmm : m (c :: t) with _ | ⟨e, r⟩ <;> dsimp only
      · have hlt : t.length ≤ n := by
          simp only [List.length_cons] at hl
          omega
        rw [ih n (by omega) t hlt, ih t.length (by omega) t (le_refl _)]
      · have hr := hm _ _ _ hmm
        simp only [List.length_cons] at hr hl
        rw [ih n (by omega) r (by omega), ih t.length (by omega) r (by omega)]

theorem replScan_nil (m : List Char → Option (List Char × List Char)) :
    replScan m [] = [] := rfl

theorem replScan_cons (m : List Char → Option (List Char × List Char))
    (hm : ∀ l e r, m l = some (e, r) → r.length < l.length)
    (c : Char) (t : List Char) :
    replScan m (c :: t) =
      match m (c :: t) with
      | some (e, r) => e ++ replScan m r
      | none => c :: replScan m t := by
  show replScanGo m ((c :: t).length) (c :: t) = _
  simp only [List.length_cons]
  rw [replScanGo_step m t.length c t]
  rcases hmm : m (c :: t) with _ | ⟨e, r⟩ <;> dsimp only
  · rw [replScanGo_eq m hm t.length t (le_refl _)]
    rfl
  · have hr := hm _ _ _ hmm
    simp only [List.length_cons] at hr
    rw [replScanGo_eq m hm t.length r (by omega)]
    rfl

theorem gmScanGo_step (m : List Char → Option (List Char × Bool))
    (k : Nat) (flag : Bool) (c : Char) (t : List Char) :
    gmScanGo m (k + 1) flag (c :: t) =
      if flag then
        match m (c :: t) with
        | some (rest, f2) => gmScanGo m k f2 rest
        | none => c :: gmScanGo m k (lineTermB c) t
      else c :: gmScanGo m k (lineTermB c) t := rfl

theorem gmScanGo_eq (m : List Char → Option (List Char × Bool))
    (hm : ∀ l r f, m l = some (r, f) → r.length < l.length) (n : Nat) :
    ∀ (flag : Bool) (l : List Char), l.length ≤ n →
      gmScanGo m n flag l = gmScanGo m l.length flag l := by
  induction n using Nat.strong_induction_on with
  | _ n ih =>
    intro flag l hl
    match n, l with
    | 0, l =>
      have hnil : l = [] := by
        cases l with
        | nil => rfl
        | cons c t => simp at hl
      subst hnil
      rfl
    | n + 1, [] => rfl
    | n + 1, c :: t =>
      rw [gmScanGo_step m n flag c t]
      simp only [List.length_cons]
      rw [gmScanGo_step m t.length flag c t]
      by_cases hf : flag
      · rw [if_pos hf, if_pos hf]
        rcases hmm : m (c :: t) with _ | ⟨r, f2⟩ <;> dsimp only
        · have hlt : t.length ≤ n := by
            simp only [List.length_cons] at hl
            omega
          rw [ih n (by omega) _ t hlt, ih t.length (by omega) _ t (le_refl _)]
        · have hr := hm _ _ _ hmm
          simp only [List.length_cons] at hr hl
          rw [ih n (by omega) _ r (by omega),
            ih t.length (by omega) _ r (by omega)]
      · rw [if_neg hf, if_neg hf]
        have hlt : t.length ≤ n := by
          simp only [List.length_cons] at hl
          omega
        rw [ih n (by omega) _ t hlt, ih t.length (by omega) _ t (le_refl _)]

theorem gmScan_nil (m : List Char → Option (List Char × Bool)) (flag : Bool) :
    gmScan m flag [] = [] := rfl

theorem gmScan_cons (m : List Char → Option (List Char × Bool))
    (hm : ∀ l r f, m l = some (r, f) → r.length < l.length)
    (flag : Bool) (c : Char) (t : List Char) :
    gmScan m flag (c :: t) =
      if flag then
        match m (c :: t) with
        | some (rest, f2) => gmScan m f2 rest
        | none => c :: gmScan m (lineTermB c) t
      else c :: gmScan m (lineTermB c) t := by
  show gmScanGo m ((c :: t).length) flag (c :: t) = _
  simp only [List.length_cons]
  rw [gmScanGo_step m t.length flag c t]
  by_cases hf : flag
  · rw [if_pos hf, if_pos hf]
    rcases hmm : m (c :: t) with _ | ⟨r, f2⟩ <;> dsimp only
    · rw [gmScanGo_eq m hm t.length _ t (le_refl _)]
      rfl
    · have hr := hm _ _ _ hmm
      simp only [List.length_cons] at hr
      rw [gmScanGo_eq m hm t.length _ r (by omega)]
      rfl
  · rw [if_neg hf, if_neg hf]
    rw [gmScanGo_eq m hm t.length _ t (le_refl _)]
    rfl

theorem r4ScanGo_step (k : Nat) (c : Char) (t : List Char) :
    r4ScanGo (k + 1) (c :: t) =
      if c = '\n' then
        (if 3 ≤ (lfRunSplit (c :: t)).1 then ['\n', '\n']
         else List.replicate (lfRunSplit (c :: t)).1 '\n') ++
          r4ScanGo k (lfRunSplit (c :: t)).2
      else c :: r4ScanGo k t := rfl

theorem r4ScanGo_eq (n : Nat) :
    ∀ l : List Char, l.length ≤ n → r4ScanGo n l = r4ScanGo l.length l := by
  induction n using Nat.strong_induction_on with
  | _ n ih =>
    intro l hl
    match n, l with
    | 0, l =>
      have hnil : l = [] := by
        cases l with
        | nil => rfl
        | cons c t => simp at hl
      subst hnil
      rfl
    | n + 1, [] => rfl
    | n + 1, c :: t =>
      rw [r4ScanGo_step n c t]
      simp only [List.length_cons]
      rw [r4ScanGo_step t.length c t]
      by_cases hc : c = '\n'
      · rw [if_pos hc, if_pos hc]
        have h1 := lfRunSplit_length (c :: t)
        have h2 : 1 ≤ (lfRunSplit (c :: t)).1 := by
          unfold lfRunSplit
          simp [hc]
        simp only [List.length_cons] at h1 hl
        rw [ih n (by omega) _ (by omega), ih t.length (by omega) _ (by omega)]
      · rw [if_neg hc, if_neg hc]
        have hlt : t.length ≤ n := by
          simp only [List.length_cons] at hl
          omega
        rw [ih n (by omega) t hlt, ih t.length (by omega) t (le_refl _)]

theorem r4Scan_nil : r4Scan [] = [] := rfl

theorem r4Scan_cons (c : Char) (t : List Char) :
    r4Scan (c :: t) =
      if c = '\n' then
        (if 3 ≤ (lfRunSplit (c :: t)).1 then ['\n', '\n']
         else List.replicate (lfRunSplit (c :: t)).1 '\n') ++
          r4Scan (lfRunSplit (c :: t)).2
      else c :: r4Scan t := by
  show r4ScanGo ((c :: t).length) (c :: t) = _
  simp only [List.length_cons]
  rw [r4ScanGo_step t.length c t]
  by_cases hc : c = '\n'
  · rw [if_pos hc, if_pos hc]
    have h1 := lfRunSplit_length (c :: t)
    have h2 : 1 ≤ (lfRunSplit (c :: t)).1 := by
      unfold lfRunSplit
      simp [hc]
    simp only [List.length_cons] at h1
    rw [r4ScanGo_eq t.length _ (by omega)]
    rfl
  · rw [if_neg hc, if_neg hc]
    rw [r4ScanGo_eq t.length t (le_refl _)]
    rfl

/-! ## Idempotence of the pnpm workflow rewrite

Strategy: after the global replace, no suffix of the result matches the
replace pattern `\s+version:\s*"9"` any more; since every successful
test-regex match contains such a suffix match, the test regex fails on
rewritten content and the second run is the identity. -/

theorem wsSplit_cons_ws {c : Char} (t : List Char) (h : jsWs c = true) :
    wsSplit (c :: t) = (c :: (wsSplit t).1, (wsSplit t).2) := by
  conv_lhs => unfold wsSplit
  rw [if_pos h]

theorem wsSplit_cons_not {c : Char} (t : List Char) (h : jsWs c = false) :
    wsSplit (c :: t) = ([], c :: t) := by
  conv_lhs => unfold wsSplit
  rw [if_neg (by simp [h])]

theorem wsSplit_fst_ws (l : List Char) : ∀ c ∈ (wsSplit l).1, jsWs c = true := by
  induction l with
  | nil => simp [wsSplit]
  | cons c t ih =>
    by_cases h : jsWs c
    · rw [wsSplit_cons_ws t h]
      intro d hd
      rcases List.mem_cons.mp hd with hd | hd
      · subst hd; exact h
      · exact ih d hd
    · rw [wsSplit_cons_not t (by simpa using h)]
      simp

theorem wsSplit_snd_head (l : List Char) {c : Char} {r : List Char}
    (h : (wsSplit l).2 = c :: r) : jsWs c = false := by
  induction l with
  | nil => simp [wsSplit] at h
  | cons a t ih =>
    by_cases ha : jsWs a
    · rw [wsSplit_cons_ws t ha] at h
      exact ih h
    · rw [wsSplit_cons_not t (by simpa using ha)] at h
      dsimp only at h
      injection h with h1 h2
      subst h1
      simpa using ha

theorem wsSplit_append_not {w : List Char} (hw : ∀ c ∈ w, jsWs c = true)
    {x : List Char} (hx : ∀ c r, x = c :: r → jsWs c = false) :
    wsSplit (w ++ x) = (w, x) := by
  induction w with
  | nil =>
    simp only [List.nil_append]
    cases x with
    | nil => rfl
    | cons c r => exact wsSplit_cons_not r (hx c r rfl)
  | cons a w' ih =>
    have ha : jsWs a = true := hw a (List.mem_cons_self a w')
    simp only [List.cons_append]
    rw [wsSplit_cons_ws _ ha, ih (fun c hc => hw c (List.mem_cons_of_mem a hc))]

theorem stripLit_some_eq {p y z : List Char} (h : stripLit p y = some z) :
    y = p ++ z := by
  induction p generalizing y with
  | nil =>
    unfold stripLit at h
    simp only [Option.some.injEq] at h
    rw [h]
    rfl
  | cons a p' ih =>
    cases y with
    | nil => simp [stripLit] at h
    | cons b y' =>
      unfold stripLit at h
      by_cases hb : b = a
      · rw [if_pos hb] at h
        rw [hb, List.cons_append]
        exact congrArg (List.cons a) (ih h)
      · rw [if_neg hb] at h
        exact absurd h (by simp)

theorem stripLit_self_append (p x : List Char) : stripLit p (p ++ x) = some x := by
  induction p with
  | nil => rfl
  | cons a p' ih =>
    simp only [List.cons_append]
    unfold stripLit
    rw [if_pos rfl]
    exact ih

theorem stripLit_cons_ne {a : Char} {p : List Char} {b : Char} {y : List Char}
    (h : b ≠ a) : stripLit (a :: p) (b :: y) = none := by
  unfold stripLit
  rw [if_neg h]

theorem stripLit_suffix {p y z : List Char} (h : stripLit p y = some z) :
    z <:+ y := by
  rw [stripLit_some_eq h]
  exact List.suffix_append p z

theorem wsSplit_snd_suffix (l : List Char) : (wsSplit l).2 <:+ l := by
  conv_rhs => rw [← wsSplit_eq l]
  exact List.suffix_append _ _

theorem anySuffix_eq_true_iff {p : List Char → Bool} {l : List Char} :
    anySuffix p l = true ↔ ∃ s, s <:+ l ∧ p s = true := by
  induction l with
  | nil =>
    constructor
    · intro h
      exact ⟨[], List.nil_suffix, h⟩
    · rintro ⟨s, hs, hp⟩
      have : s = [] := List.suffix_nil.mp hs
      subst this
      exact hp
  | cons c t ih =>
    constructor
    · intro h
      unfold anySuffix at h
      rcases Bool.or_eq_true_iff.mp h with h | h
      · exact ⟨c :: t, List.suffix_refl _, h⟩
      · obtain ⟨s, hs, hp⟩ := ih.mp h
        exact ⟨s, hs.trans (List.suffix_cons c t), hp⟩
    · rintro ⟨s, hs, hp⟩
      unfold anySuffix
      rcases List.suffix_cons_iff.mp hs with hs | hs
      · subst hs
        simp [hp]
      · rw [Bool.or_eq_true_iff]
        exact Or.inr (ih.mpr ⟨s, hs, hp⟩)

/-- The `version:\s*"9"` part of the replace pattern, applied after the
leading whitespace has been split off. -/
def vqAt (z : List Char) : Bool :=
  match stripLit "version:".toList z with
  | none => false
  | some r2 => (stripLit [dq, '9', dq] (wsSplit r2).2).isSome

theorem pnpmMatchAt_nil : pnpmMatchAt [] = none := rfl

theorem pnpmMatchAt_cons_not_ws {c : Char} (t : List Char)
    (h : jsWs c = false) : pnpmMatchAt (c :: t) = none := by
  unfold pnpmMatchAt
  dsimp only
  rw [if_neg (by simp [h])]

theorem pnpmMatchAt_none_iff {c : Char} (t : List Char) (h : jsWs c = true) :
    pnpmMatchAt (c :: t) = none ↔ vqAt (wsSplit (c :: t)).2 = false := by
  unfold pnpmMatchAt vqAt
  dsimp only
  rw [if_pos h]
  rcases h2 : stripLit "version:".toList (wsSplit (c :: t)).2 with _ | r2 <;>
      dsimp only
  · simp
  · rcases h4 : stripLit [dq, '9', dq] (wsSplit r2).2 with _ | r4 <;> dsimp only
    · simp
    · simp

theorem pnpmMatchAt_some_shape {l e r : List Char}
    (h : pnpmMatchAt l = some (e, r)) :
    ∃ W W2 : List Char,
      e = W ++ "version:".toList ++ W2 ++ "10.22.0".toList ∧
      l = W ++ "version:".toList ++ W2 ++ [dq, '9', dq] ++ r ∧
      W ≠ [] ∧ (∀ c ∈ W, jsWs c = true) ∧ (∀ c ∈ W2, jsWs c = true) := by
  cases l with
  | nil => simp [pnpmMatchAt] at h
  | cons c t =>
    unfold pnpmMatchAt at h
    dsimp only at h
    by_cases hws : jsWs c
    · rw [if_pos hws] at h
      rcases h2 : stripLit "version:".toList (wsSplit (c :: t)).2 with _ | r2 <;>
          rw [h2] at h <;> dsimp only at h
      · exact absurd h (by simp)
      · rcases h4 : stripLit [dq, '9', dq] (wsSplit r2).2 with _ | r4 <;>
            rw [h4] at h <;> dsimp only at h
        · exact absurd h (by simp)
        · simp only [Option.some.injEq, Prod.mk.injEq] at h
          obtain ⟨he, hr⟩ := h
          refine ⟨(wsSplit (c :: t)).1, (wsSplit r2).1, he.symm, ?_, ?_,
            wsSplit_fst_ws _, wsSplit_fst_ws _⟩
          · have e1 := (wsSplit_eq (c :: t)).symm
            rw [stripLit_some_eq h2] at e1
            rw [← wsSplit_eq r2] at e1
            rw [stripLit_some_eq h4] at e1
            rw [hr] at e1
            simpa [List.append_assoc] using e1
          · rw [wsSplit_cons_ws t hws]
            simp
    · rw [if_neg hws] at h
      exact absurd h (by simp)

theorem pnpmReplaceL_head (l : List Char) :
    (pnpmReplaceL l).head? = l.head? := by
  cases l with
  | nil => rfl
  | cons c t =>
    rw [pnpmReplaceL_cons]
    rcases hm : pnpmMatchAt (c :: t) with _ | ⟨e, r⟩ <;> dsimp only
    · rfl
    · obtain ⟨W, W2, he, hl, hW, -, -⟩ := pnpmMatchAt_some_shape hm
      cases W with
      | nil => exact absurd rfl hW
      | cons w0 W' =>
        have h0 := congrArg List.head? hl
        simp only [List.cons_append, List.head?_cons, Option.some.injEq] at h0
        rw [he]
        simp [h0]

theorem suffix_append_cases {s a b : List Char} (h : s <:+ a ++ b) :
    s <:+ b ∨ ∃ a2, a2 <:+ a ∧ s = a2 ++ b := by
  obtain ⟨pre, hp⟩ := h
  rcases List.append_eq_append_iff.mp hp with ⟨a2, ha, hs⟩ | ⟨c2, hpre, hb⟩
  · exact Or.inr ⟨a2, ⟨pre, ha.symm⟩, hs⟩
  · exact Or.inl ⟨c2, hb.symm⟩

theorem verL_not_ws : ∀ c ∈ "version:".toList, jsWs c = false := by decide

theorem digL_not_ws : ∀ c ∈ "10.22.0".toList, jsWs c = false := by decide

theorem pnpmReplaceL_lit {p : List Char} (hp : ∀ c ∈ p, jsWs c = false) :
    ∀ {y z : List Char}, stripLit p y = some z →
      pnpmReplaceL y = p ++ pnpmReplaceL z := by
  induction p with
  | nil =>
    intro y z h
    unfold stripLit at h
    simp only [Option.some.injEq] at h
    rw [h]
    rfl
  | cons a p' ih =>
    intro y z h
    cases y with
    | nil => simp [stripLit] at h
    | cons b y' =>
      unfold stripLit at h
      by_cases hb : b = a
      · rw [if_pos hb] at h
        subst hb
        rw [pnpmReplaceL_cons,
          pnpmMatchAt_cons_not_ws y' (hp b (List.mem_cons_self b p'))]
        dsimp only
        rw [ih (fun c hc => hp c (List.mem_cons_of_mem _ hc)) h]
        rfl
      · rw [if_neg hb] at h
        exact absurd h (by simp)

theorem stripLit_none_replace {p : List Char} (hp : ∀ c ∈ p, jsWs c = false) :
    ∀ {y : List Char}, stripLit p y = none →
      stripLit p (pnpmReplaceL y) = none := by
  induction p with
  | nil =>
    intro y h
    simp [stripLit] at h
  | cons a p' ih =>
    intro y h
    cases y with
    | nil =>
      rw [pnpmReplaceL_nil]
      exact h
    | cons b y' =>
      by_cases hb : b = a
      · subst hb
        unfold stripLit at h
        rw [if_pos rfl] at h
        rw [pnpmReplaceL_cons,
          pnpmMatchAt_cons_not_ws y' (hp b (List.mem_cons_self b p'))]
        dsimp only
        unfold stripLit
        rw [if_pos rfl]
        exact ih (fun c hc => hp c (List.mem_cons_of_mem _ hc)) h
      · have hh := pnpmReplaceL_head (b :: y')
        simp only [List.head?_cons] at hh
        rcases hz : pnpmReplaceL (b :: y') with _ | ⟨b2, z2⟩
        · rw [hz] at hh
          exact absurd hh (by simp)
        · rw [hz] at hh
          simp only [List.head?_cons, Option.some.injEq] at hh
          rw [hh] at hz ⊢
          exact stripLit_cons_ne hb

theorem q9_head_ne_v : ('1' : Char) ≠ dq := by decide

/-- The postWs whitespace-run view of a matched replacement block:
splitting whitespace off `W ++ (ver ++ x)` with `W` the whitespace and
`ver` the literal `version:`. -/
theorem postWs_of_replacement {W : List Char} (hW : ∀ c ∈ W, jsWs c = true)
    (x : List Char) :
    wsSplit (W ++ ("version:".toList ++ x)) = (W, "version:".toList ++ x) := by
  apply wsSplit_append_not hW
  intro c r hcr
  have : c = 'v' := by
    have := congrArg List.head? hcr
    simpa using this.symm
  rw [this]
  decide

/-- After `version:`, a following block starting with the digit
replacement can never satisfy the quoted-"9" check. -/
theorem vq_digits_false {W2 : List Char} (hW2 : ∀ c ∈ W2, jsWs c = true)
    (x : List Char) :
    vqAt ("version:".toList ++ (W2 ++ ("10.22.0".toList ++ x))) = false := by
  unfold vqAt
  rw [stripLit_self_append]
  dsimp only
  have hsplit : wsSplit (W2 ++ ("10.22.0".toList ++ x)) =
      (W2, "10.22.0".toList ++ x) := by
    apply wsSplit_append_not hW2
    intro c r hcr
    have : c = '1' := by
      have := congrArg List.head? hcr
      simpa using this.symm
    rw [this]
    decide
  rw [hsplit]
  dsimp only
  have h19 : "10.22.0".toList ++ x = '1' :: ("0.22.0".toList ++ x) := rfl
  rw [h19, stripLit_cons_ne (by decide)]
  rfl

theorem q9_not_ws : ∀ c ∈ [dq, '9', dq], jsWs c = false := by decide

theorem q9_postWs_transfer (n : Nat) : ∀ y : List Char, y.length ≤ n →
    stripLit [dq, '9', dq] (wsSplit y).2 = none →
    stripLit [dq, '9', dq] (wsSplit (pnpmReplaceL y)).2 = none := by
  induction n with
  | zero =>
    intro y hy h
    have hnil : y = [] := by
      cases y with
      | nil => rfl
      | cons c t => simp at hy
    subst hnil
    exact h
  | succ n ih =>
    intro y hy h
    cases y with
    | nil => exact h
    | cons c t =>
      rw [pnpmReplaceL_cons]
      rcases hm : pnpmMatchAt (c :: t) with _ | ⟨e, r⟩ <;> dsimp only
      · by_cases hws : jsWs c
        · rw [wsSplit_cons_ws t hws] at h
          rw [wsSplit_cons_ws (pnpmReplaceL t) hws]
          dsimp only at h ⊢
          exact ih t (by simp only [List.length_cons] at hy; omega) h
        · rw [wsSplit_cons_not t (by simpa using hws)] at h
          rw [wsSplit_cons_not (pnpmReplaceL t) (by simpa using hws)]
          dsimp only at h ⊢
          have := stripLit_none_replace q9_not_ws (y := c :: t) h
          rw [pnpmReplaceL_cons, hm] at this
          exact this
      · obtain ⟨W, W2, he, hl2, hW, hWws, hW2ws⟩ := pnpmMatchAt_some_shape hm
        rw [he]
        rw [show (W ++ "version:".toList ++ W2 ++ "10.22.0".toList) ++
            pnpmReplaceL r =
            W ++ ("version:".toList ++
              (W2 ++ ("10.22.0".toList ++ pnpmReplaceL r))) by
          simp [List.append_assoc]]
        rw [postWs_of_replacement hWws]
        dsimp only
        rw [show "version:".toList ++
            (W2 ++ ("10.22.0".toList ++ pnpmReplaceL r)) =
            'v' :: ("ersion:".toList ++
              (W2 ++ ("10.22.0".toList ++ pnpmReplaceL r))) from rfl]
        exact stripLit_cons_ne (by decide)

theorem vqAt_transfer (y : List Char) (h : vqAt y = false) :
    vqAt (pnpmReplaceL y) = false := by
  unfold vqAt at h ⊢
  rcases hv : stripLit "version:".toList y with _ | r2
  · rw [stripLit_none_replace verL_not_ws hv]
  · rw [hv] at h
    dsimp only at h
    rw [pnpmReplaceL_lit verL_not_ws hv, stripLit_self_append]
    dsimp only
    have h2 : stripLit [dq, '9', dq] (wsSplit r2).2 = none := by
      rcases hx : stripLit [dq, '9', dq] (wsSplit r2).2 with _ | u
      · rfl
      · rw [hx] at h
        exact absurd h (by simp)
    rw [q9_postWs_transfer r2.length r2 (le_refl _) h2]
    rfl

theorem postWs_vqAt_transfer (n : Nat) : ∀ y : List Char, y.length ≤ n →
    vqAt (wsSplit y).2 = false →
    vqAt (wsSplit (pnpmReplaceL y)).2 = false := by
  induction n with
  | zero =>
    intro y hy h
    have hnil : y = [] := by
      cases y with
      | nil => rfl
      | cons c t => simp at hy
    subst hnil
    exact h
  | succ n ih =>
    intro y hy h
    cases y with
    | nil => exact h
    | cons c t =>
      rw [pnpmReplaceL_cons]
      rcases hm : pnpmMatchAt (c :: t) with _ | ⟨e, r⟩ <;> dsimp only
      · by_cases hws : jsWs c
        · rw [wsSplit_cons_ws t hws] at h
          rw [wsSplit_cons_ws (pnpmReplaceL t) hws]
          dsimp only at h ⊢
          exact ih t (by simp only [List.length_cons] at hy; omega) h
        · rw [wsSplit_cons_not t (by simpa using hws)] at h
          rw [wsSplit_cons_not (pnpmReplaceL t) (by simpa using hws)]
          dsimp only at h ⊢
          have := vqAt_transfer (c :: t) h
          rw [pnpmReplaceL_cons, hm] at this
          exact this
      · obtain ⟨W, W2, he, hl2, hW, hWws, hW2ws⟩ := pnpmMatchAt_some_shape hm
        rw [he]
        rw [show (W ++ "version:".toList ++ W2 ++ "10.22.0".toList) ++
            pnpmReplaceL r =
            W ++ ("version:".toList ++
              (W2 ++ ("10.22.0".toList ++ pnpmReplaceL r))) by
          simp [List.append_assoc]]
        rw [postWs_of_replacement hWws]
        dsimp only
        exact vq_digits_false hW2ws _

theorem pnpmMatchAt_none_transfer {c : Char} {t : List Char}
    (h : pnpmMatchAt (c :: t) = none) :
    pnpmMatchAt (c :: pnpmReplaceL t) = none := by
  by_cases hws : jsWs c
  · rw [pnpmMatchAt_none_iff t hws] at h
    rw [pnpmMatchAt_none_iff (pnpmReplaceL t) hws]
    rw [wsSplit_cons_ws t hws] at h
    rw [wsSplit_cons_ws (pnpmReplaceL t) hws]
    dsimp only at h ⊢
    exact postWs_vqAt_transfer t.length t (le_refl _) h
  · exact pnpmMatchAt_cons_not_ws _ (by simpa using hws)

theorem matchAt_ws_ver_digits {Wx W2x : List Char}
    (hWx : ∀ c ∈ Wx, jsWs c = true) (hW2x : ∀ c ∈ W2x, jsWs c = true)
    (X : List Char) :
    pnpmMatchAt (Wx ++ ("version:".toList ++
      (W2x ++ ("10.22.0".toList ++ X)))) = none := by
  cases Wx with
  | nil =>
    rw [List.nil_append]
    rw [show "version:".toList ++ (W2x ++ ("10.22.0".toList ++ X)) =
        'v' :: ("ersion:".toList ++ (W2x ++ ("10.22.0".toList ++ X)))
      from rfl]
    exact pnpmMatchAt_cons_not_ws _ (by decide)
  | cons w0 Wx' =>
    have hw0 : jsWs w0 = true := hWx w0 (List.mem_cons_self w0 Wx')
    have hWx' : ∀ c ∈ Wx', jsWs c = true :=
      fun c hc => hWx c (List.mem_cons_of_mem w0 hc)
    rw [List.cons_append, pnpmMatchAt_none_iff _ hw0, wsSplit_cons_ws _ hw0]
    dsimp only
    rw [postWs_of_replacement hWx' _]
    exact vq_digits_false hW2x _

theorem matchAt_ws_digits {W2x : List Char}
    (hW2x : ∀ c ∈ W2x, jsWs c = true) (X : List Char) :
    pnpmMatchAt (W2x ++ ("10.22.0".toList ++ X)) = none := by
  cases W2x with
  | nil =>
    rw [List.nil_append]
    rw [show "10.22.0".toList ++ X = '1' :: ("0.22.0".toList ++ X) from rfl]
    exact pnpmMatchAt_cons_not_ws _ (by decide)
  | cons w0 W2x' =>
    have hw0 : jsWs w0 = true := hW2x w0 (List.mem_cons_self w0 W2x')
    have hW' : ∀ c ∈ W2x', jsWs c = true :=
      fun c hc => hW2x c (List.mem_cons_of_mem w0 hc)
    rw [List.cons_append, pnpmMatchAt_none_iff _ hw0, wsSplit_cons_ws _ hw0]
    dsimp only
    have hsp : wsSplit (W2x' ++ ("10.22.0".toList ++ X)) =
        (W2x', "10.22.0".toList ++ X) := by
      apply wsSplit_append_not hW'
      intro c r hcr
      rw [show "10.22.0".toList ++ X = '1' :: ("0.22.0".toList ++ X)
        from rfl] at hcr
      cases hcr
      decide
    rw [hsp]
    unfold vqAt
    rw [show "10.22.0".toList ++ X = '1' :: ("0.22.0".toList ++ X) from rfl]
    rw [show "version:".toList = 'v' :: "ersion:".toList from rfl]
    rw [stripLit_cons_ne (by decide)]

theorem noQ_suffix_replace (n : Nat) : ∀ l : List Char, l.length ≤ n →
    ∀ s, s <:+ pnpmReplaceL l → pnpmMatchAt s = none := by
  induction n with
  | zero =>
    intro l hl s hs
    have hnil : l = [] := by
      cases l with
      | nil => rfl
      | cons c t => simp at hl
    subst hnil
    rw [List.suffix_nil.mp hs]
    rfl
  | succ n ih =>
    intro l hl s hs
    cases l with
    | nil =>
      rw [List.suffix_nil.mp hs]
      rfl
    | cons c t =>
      rw [pnpmReplaceL_cons] at hs
      rcases hm : pnpmMatchAt (c :: t) with _ | ⟨e, r⟩ <;>
          rw [hm] at hs <;> dsimp only at hs
      · rcases List.suffix_cons_iff.mp hs with hs | hs
        · rw [hs]
          exact pnpmMatchAt_none_transfer hm
        · exact ih t (by simp only [List.length_cons] at hl; omega) s hs
      · obtain ⟨W, W2, he, hl2, hWne, hWws, hW2ws⟩ := pnpmMatchAt_some_shape hm
        have hr := pnpmMatchAt_rest_lt hm
        have hrn : r.length ≤ n := by
          simp only [List.length_cons] at hl hr
          omega
        rw [he] at hs
        rw [show (W ++ "version:".toList ++ W2 ++ "10.22.0".toList) ++
            pnpmReplaceL r =
            W ++ ("version:".toList ++
              (W2 ++ ("10.22.0".toList ++ pnpmReplaceL r))) by
          simp [List.append_assoc]] at hs
        rcases suffix_append_cases hs with hs | ⟨w1, hw1, hsw1⟩
        · rcases suffix_append_cases hs with hs | ⟨v2, hv2, hsv2⟩
          · rcases suffix_append_cases hs with hs | ⟨w2, hw2, hsw2⟩
            · rcases suffix_append_cases hs with hs | ⟨d2, hd2, hsd2⟩
              · exact ih r hrn s hs
              · cases d2 with
                | nil =>
                  rw [hsd2, List.nil_append]
                  exact ih r hrn _ (List.suffix_refl _)
                | cons d0 d2' =>
                  have hd0 : jsWs d0 = false :=
                    digL_not_ws d0 (hd2.subset (List.mem_cons_self d0 d2'))
                  rw [hsd2, List.cons_append]
                  exact pnpmMatchAt_cons_not_ws _ hd0
            · have hw2ws : ∀ c ∈ w2, jsWs c = true :=
                fun c hc => hW2ws c (hw2.subset hc)
              rw [hsw2]
              exact matchAt_ws_digits hw2ws _
          · cases v2 with
            | nil =>
              rw [hsv2, List.nil_append]
              exact matchAt_ws_digits hW2ws _
            | cons v0 v2' =>
              have hv0 : jsWs v0 = false :=
                verL_not_ws v0 (hv2.subset (List.mem_cons_self v0 v2'))
              rw [hsv2, List.cons_append]
              exact pnpmMatchAt_cons_not_ws _ hv0
        · have hw1ws : ∀ c ∈ w1, jsWs c = true :=
            fun c hc => hWws c (hw1.subset hc)
          rw [hsw1]
          exact matchAt_ws_ver_digits hw1ws hW2ws _

theorem pnpmMatchAt_of_parts {y r2 : List Char}
    (hW : (wsSplit y).1 ≠ [])
    (h3 : stripLit "version:".toList (wsSplit y).2 = some r2)
    (h4 : (stripLit [dq, '9', dq] (wsSplit r2).2).isSome = true) :
    pnpmMatchAt y ≠ none := by
  cases y with
  | nil => exact absurd rfl hW
  | cons c t =>
    by_cases hws : jsWs c
    · unfold pnpmMatchAt
      dsimp only
      rw [if_pos hws, h3]
      dsimp only
      rcases h5 : stripLit [dq, '9', dq] (wsSplit r2).2 with _ | r4
      · rw [h5] at h4
        exact absurd h4 (by simp)
      · simp
    · rw [wsSplit_cons_not t (by simpa using hws)] at hW
      exact absurd rfl hW

theorem withVersionAt_suffix_match {y : List Char}
    (h : withVersionAt y = true) :
    ∃ s, s <:+ y ∧ pnpmMatchAt s ≠ none := by
  unfold withVersionAt at h
  rcases h1 : stripLit "with:".toList y with _ | r1 <;>
      rw [h1] at h <;> dsimp only at h
  · exact absurd h (by simp)
  · rw [Bool.and_eq_true] at h
    obtain ⟨hnl, h2⟩ := h
    refine ⟨r1, stripLit_suffix h1, ?_⟩
    have hWne : (wsSplit r1).1 ≠ [] := by
      intro hW
      rw [hW] at hnl
      simp at hnl
    rcases h3 : stripLit "version:".toList (wsSplit r1).2 with _ | r2 <;>
        rw [h3] at h2 <;> dsimp only at h2
    · exact absurd h2 (by simp)
    · exact pnpmMatchAt_of_parts hWne h3 h2

theorem usesAt_suffix_match {y : List Char} (h : usesAt y = true) :
    ∃ s, s <:+ y ∧ pnpmMatchAt s ≠ none := by
  unfold usesAt at h
  rcases h1 : stripLit "uses:".toList y with _ | r1 <;>
      rw [h1] at h <;> dsimp only at h
  · exact absurd h (by simp)
  · rcases h2 : stripLit "pnpm/action-setup@v4".toList (wsSplit r1).2
        with _ | r2 <;> rw [h2] at h <;> dsimp only at h
    · exact absurd h (by simp)
    · obtain ⟨y2, hy2, hwv⟩ := anySuffix_eq_true_iff.mp h
      obtain ⟨s, hs, hm⟩ := withVersionAt_suffix_match hwv
      exact ⟨s, hs.trans (hy2.trans ((stripLit_suffix h2).trans
        ((wsSplit_snd_suffix r1).trans (stripLit_suffix h1)))), hm⟩

theorem pnpmTestL_suffix_match {l : List Char} (h : pnpmTestL l = true) :
    ∃ s, s <:+ l ∧ pnpmMatchAt s ≠ none := by
  obtain ⟨y, hy, hu⟩ := anySuffix_eq_true_iff.mp h
  obtain ⟨s, hs, hm⟩ := usesAt_suffix_match hu
  exact ⟨s, hs.trans hy, hm⟩

theorem pnpmTestL_replace_false (l : List Char) :
    pnpmTestL (pnpmReplaceL l) = false := by
  by_contra hc
  rw [Bool.not_eq_false] at hc
  obtain ⟨s, hs, hm⟩ := pnpmTestL_suffix_match hc
  exact hm (noQ_suffix_replace l.length l (le_refl _) s hs)

theorem pnpmWorkflowTransform_idem (l : List Char) :
    pnpmWorkflowTransform (pnpmWorkflowTransform l) =
      pnpmWorkflowTransform l := by
  unfold pnpmWorkflowTransform
  by_cases ht : pnpmTestL l = true
  · rw [if_pos ht, if_neg (by simp [pnpmTestL_replace_false])]
  · rw [if_neg ht, if_neg ht]

/-! ## C5 -/

/-- Concrete `.projenrc.ts`-style content refuting idempotence of the
content repair: the first line contains the deprecated-configuration
marker but a trailing blocker keeps its removal regex from matching; a
bare `packageManager:` line and a bare
`javascript.NodePackageManager.PNPM` line are separated only by a
`pnpmVersion` line. -/
def projenrcC5 : List Char :=
  ("packageManager: javascript.NodePackageManager.PNPM x\n" ++
   "packageManager:\n" ++
   "pnpmVersion: " ++ String.mk [sq, '9', sq] ++ "\n" ++
   "javascript.NodePackageManager.PNPM").toList

/-- C5 counterexample: the `.projenrc.ts` content repair is not
idempotent.  On the sample content the first run only removes the
`pnpmVersion` line (the `packageManager` regex matches nowhere: one
occurrence is followed by a blocker, the other is interrupted by the
`pnpmVersion` line).  That removal leaves the bare `packageManager:`
line separated from the bare `javascript.NodePackageManager.PNPM` line
by whitespace only, and since `\s*` inside
`/^\s*packageManager:\s*javascript\.NodePackageManager\.PNPM,?\s*$/gm`
crosses newlines, the second run matches there and deletes further text,
producing a second diff and a second commit. -/
theorem contentRepair_not_idempotent :
    projenrcTransform (projenrcTransform projenrcC5) ≠
      projenrcTransform projenrcC5 := by decide

/-- C5 amended: the workflow pnpm-version rewriting is idempotent —
rewritten content never matches the test regex again, so a second run
leaves it byte-for-byte unchanged and commits nothing; the `.projenrc.ts`
content repair, by contrast, is not idempotent in general. -/
theorem pnpm_rewrite_idempotent (l : List Char) :
    pnpmWorkflowTransform (pnpmWorkflowTransform l) =
      pnpmWorkflowTransform l :=
  pnpmWorkflowTransform_idem l
